import Mathlib

/-
Verification of the pipeline-dependency engine of the house-prices
repository.  The persisted registry (src/dvc.lock) is embedded verbatim
below as `houseRegistry`.  The engine itself (content hasher, staleness
evaluator, execution planner, runner) is not shipped in src/; following
the specification document it is modelled here from the spec's words.
-/

deriving instance DecidableEq for Except

namespace HousePrices

/-- A file on disk: byte content together with filesystem metadata
(mtime, permissions) and readability.  Only the content takes part in
fingerprinting. -/
structure File where
  content : String
  mtime : Nat
  perms : Nat
  readable : Bool
deriving DecidableEq, Repr

/-- The filesystem: a partial map from paths to files. -/
abbrev FS := String → Option File

/-- Modelled from the spec: the error taxonomy of section 7 (ConfigError,
CycleError, MissingInputError, StageExecutionError, ContractViolation)
plus the IOError of the content hasher contract (section 4.1). -/
inductive EngineError where
  | configError
  | cycleError
  | missingInputError
  | stageExecutionError
  | contractViolation
  | ioError
deriving DecidableEq, Repr

/-- Modelled from the spec: the Content Hasher's digest (section 4.1 and
section 6 leave the concrete hash free: "implementation may choose any
... hash"; only self-consistency is required).  A rolling polynomial
digest of the byte content, reduced modulo 2^64. -/
def digest (s : String) : Nat :=
  s.data.foldl (fun a c => (a * 131 + c.toNat) % (2 ^ 64)) 7

def digitChar (d : Nat) : Char :=
  Char.ofNat (48 + d)

/-- Decimal rendering of a number below 2^64 (20 digits suffice). -/
def natDigits : Nat → Nat → List Char → List Char
  | 0, _, acc => acc
  | fuel + 1, n, acc =>
    if n < 10 then digitChar n :: acc
    else natDigits fuel (n / 10) (digitChar (n % 10) :: acc)

/-- The digest rendered in the fixed textual form recorded in the registry. -/
def digestStr (s : String) : String :=
  String.mk (natDigits 30 (digest s) [])

/-- Modelled from the spec: `fingerprint(path) -> digest` (section 4.1).
Fails with IOError if the path does not exist or is unreadable; otherwise
the digest is a function of the file's bytes alone. -/
def fingerprint (fs : FS) (path : String) : Except EngineError String :=
  match fs path with
  | none => Except.error EngineError.ioError
  | some f =>
    if f.readable then Except.ok (digestStr f.content)
    else Except.error EngineError.ioError

/-- A declared file reference of a stage: path, recorded content
fingerprint and recorded byte size (schema of src/dvc.lock). -/
structure FileRef where
  path : String
  hash : String
  size : Nat
deriving DecidableEq, Repr

/-- A declared parameter reference: source file, key path within it and
the recorded literal value (schema of src/dvc.lock). -/
structure ParamRef where
  source : String
  key : String
  value : String
deriving DecidableEq, Repr

/-- A pipeline stage as persisted in src/dvc.lock: name, command,
dependency references, parameter references and output references. -/
structure Stage where
  name : String
  cmd : String
  deps : List FileRef := []
  params : List ParamRef := []
  outs : List FileRef := []
deriving DecidableEq, Repr

/-- The registry: the ordered list of stages as declared in the lockfile. -/
abbrev Registry := List Stage

def outPaths (s : Stage) : List String :=
  s.outs.map (fun o => o.path)

def producesPath (s : Stage) (p : String) : Bool :=
  (outPaths s).contains p

/-- Names of the stages of the registry, in declaration order. -/
def stageNames (r : Registry) : List String :=
  r.map (fun s => s.name)

/-- The first stage of the registry carrying the given name. -/
def lookupStage (r : Registry) (n : String) : Option Stage :=
  r.find? (fun s => s.name == n)

/-- Do the two path lists share an element? -/
def anyShared (l1 l2 : List String) : Bool :=
  l1.any (fun p => l2.contains p)

/-- Modelled from the spec: load-time detection of a duplicate output
producer (section 3 invariant, section 7 ConfigError). -/
def dupOutProducer : Registry → Bool
  | [] => false
  | s :: rest =>
    rest.any (fun t => anyShared (outPaths s) (outPaths t)) || dupOutProducer rest

/-- Modelled from the spec: load-time detection of a duplicate stage
name (section 3: the identifier is unique). -/
def dupName : Registry → Bool
  | [] => false
  | s :: rest => (stageNames rest).contains s.name || dupName rest

/-- A registry is well formed when stage names are unique and no output
path has two producers. -/
def loadOk (r : Registry) : Bool :=
  !(dupName r || dupOutProducer r)

/-- Modelled from the spec: loading the registry; malformed registries
are rejected with ConfigError before anything runs (section 7). -/
def loadRegistry (r : Registry) : Except EngineError Registry :=
  if loadOk r then Except.ok r else Except.error EngineError.configError

/-- Names of the stages producing the given path. -/
def producersOf (r : Registry) (p : String) : List String :=
  (r.filter (fun s => producesPath s p)).map (fun s => s.name)

/-- Producers of any of the given paths. -/
def upstreamOfPaths (r : Registry) (ps : List String) : List String :=
  ps.foldr (fun p acc => producersOf r p ++ acc) []

/-- Names of the upstream stages of a stage: the producers of its
declared dependency paths (the derived DependencyGraph of section 3). -/
def upstreamNames (r : Registry) (s : Stage) : List String :=
  upstreamOfPaths r (s.deps.map (fun d => d.path))

/-- Derived dependency-graph edge: an edge from stage `a` to stage `b`
whenever an output path of `a` equals a dependency path of `b`. -/
def edgeB (r : Registry) (a b : String) : Bool :=
  match lookupStage r a, lookupStage r b with
  | some sa, some sb => sb.deps.any (fun d => producesPath sa d.path)
  | _, _ => false

/-- A chain of graph edges starting at the given stage name. -/
def chainB (r : Registry) : String → List String → Bool
  | _, [] => true
  | a, b :: rest => edgeB r a b && chainB r b rest

/-- A cycle in the derived dependency graph: a nonempty list of stage
names with an edge between each consecutive pair, wrapping around. -/
def isCycle (r : Registry) (c : List String) : Bool :=
  match c with
  | [] => false
  | a :: rest => chainB r a (rest ++ [a])

/-- A stage is ready when every producer of one of its dependencies has
already been emitted. -/
def ready (r : Registry) (done : List String) (s : Stage) : Bool :=
  (upstreamNames r s).all (fun n => done.contains n)

/-- Modelled from the spec: Kahn's topological sort with the declaration
order of the registry as deterministic tie-break (section 4.3); at every
round the first ready stage in declaration order is emitted; if no stage
is ready the graph has a cycle and planning fails with CycleError. -/
def topoAux (r : Registry) : Nat → List String → Registry → Except EngineError (List String)
  | _, done, [] => Except.ok done.reverse
  | 0, _, _ :: _ => Except.error EngineError.cycleError
  | fuel + 1, done, remaining =>
    match remaining.find? (ready r done) with
    | none => Except.error EngineError.cycleError
    | some s => topoAux r fuel (s.name :: done) (remaining.filter (fun t => t.name != s.name))

def topoSort (r : Registry) : Except EngineError (List String) :=
  topoAux r r.length [] r

/-- The current world outside the registry: the filesystem, the current
parameter values (by source file and key) and the current command of
each stage definition. -/
structure World where
  fs : FS
  params : String → String → Option String
  cmds : String → String

/-- Has the file behind a declared reference changed (or gone missing,
or become unreadable) with respect to its recorded fingerprint? -/
def refChanged (fs : FS) (f : FileRef) : Bool :=
  match fingerprint fs f.path with
  | Except.error _ => true
  | Except.ok h => h != f.hash

/-- Has a declared parameter changed (or gone missing) with respect to
its recorded value? -/
def paramChanged (w : World) (p : ParamRef) : Bool :=
  match w.params p.source p.key with
  | none => true
  | some v => v != p.value

/-- Modelled from the spec: direct staleness of a stage (section 4.2,
first four clauses): a changed or missing dependency, a changed or
missing parameter, a missing or tampered output, or an edited command. -/
def directlyStale (w : World) (s : Stage) : Bool :=
  s.deps.any (refChanged w.fs) ||
  s.params.any (paramChanged w) ||
  s.outs.any (refChanged w.fs) ||
  (w.cmds s.name != s.cmd)

/-- One step of the staleness pass along the topological order: a stage
is recorded stale when it is directly stale or one of its upstream
producers was already recorded stale (the propagation rule of
section 4.2, computed as a single upfront pass as section 8 allows). -/
def staleStep (r : Registry) (w : World) (acc : List String) (n : String) : List String :=
  match lookupStage r n with
  | none => acc
  | some s =>
    if directlyStale w s || (upstreamNames r s).any (fun a => acc.contains a)
    then n :: acc else acc

def staleFoldAux (r : Registry) (w : World) (acc : List String) (l : List String) : List String :=
  l.foldl (staleStep r w) acc

/-- The set (as a list) of stale stage names, computed along the
topological order. -/
def staleFold (r : Registry) (w : World) (order : List String) : List String :=
  staleFoldAux r w [] order

/-- Modelled from the spec: the Execution Planner (section 4.3): derive
the dependency graph, topologically sort the stages (declaration-order
tie-break), and keep the stale ones in topological order; a cyclic graph
is rejected with CycleError. -/
def plan (r : Registry) (w : World) : Except EngineError (List String) :=
  match topoSort r with
  | Except.error e => Except.error e
  | Except.ok order =>
    Except.ok (order.filter (fun n => (staleFold r w order).contains n))

/-- Modelled from the spec: `is_stale(stage, registry)` (section 4.2),
including the propagation rule; on a cyclic registry every stage is
conservatively reported stale. -/
def is_stale (r : Registry) (w : World) (n : String) : Bool :=
  match topoSort r with
  | Except.error _ => true
  | Except.ok order => (staleFold r w order).contains n

/-- An external command oracle: running a command transforms the
filesystem, or fails (nonzero exit status). -/
abbrev Exec := String → FS → Option FS

/-- Re-fingerprint a declared reference after a successful run; a path
that is absent keeps its previous record. -/
def refreshRef (fs : FS) (f : FileRef) : FileRef :=
  match fs f.path with
  | none => f
  | some file => { f with hash := digestStr file.content, size := file.content.length }

/-- Record the current value of a declared parameter; an absent
parameter keeps its previous record. -/
def refreshParamRef (w : World) (p : ParamRef) : ParamRef :=
  match w.params p.source p.key with
  | none => p
  | some v => { p with value := v }

/-- Modelled from the spec: after a successful execution the Runner
re-fingerprints every declared reference and records the executed
command and current parameter values for the stage (section 4.4). -/
def refreshStage (w : World) (fs' : FS) (s : Stage) : Stage :=
  { s with
    cmd := w.cmds s.name,
    deps := s.deps.map (refreshRef fs'),
    params := s.params.map (refreshParamRef w),
    outs := s.outs.map (refreshRef fs') }

/-- Modelled from the spec: run one stage (section 4.4): invoke the
current command; a nonzero exit is a StageExecutionError; on zero exit
every declared output must exist on disk, otherwise the stage failed
with a ContractViolation; on success the stage record is refreshed. -/
def runStage (ex : Exec) (w : World) (s : Stage) : World × Except EngineError Stage :=
  match ex (w.cmds s.name) w.fs with
  | none => (w, Except.error EngineError.stageExecutionError)
  | some fs' =>
    let w' : World := { w with fs := fs' }
    if s.outs.all (fun o => (fs' o.path).isSome)
    then (w', Except.ok (refreshStage w' fs' s))
    else (w', Except.error EngineError.contractViolation)

/-- Result of running a plan: the updated registry, the final world, the
successfully executed stages in order, and the failing stage with its
reason when execution halted. -/
structure RunState where
  registry : Registry
  world : World
  executed : List String
  failure : Option (String × EngineError)

/-- Replace the registry entry carrying the name of the given stage. -/
def updateReg (r : Registry) (s : Stage) : Registry :=
  r.map (fun t => if t.name == s.name then s else t)

/-- Modelled from the spec: the Runner (section 4.4): execute the
planned stages sequentially; after each success persist the refreshed
registry entry; on the first failure halt immediately, leaving the
already-successful updates in place. -/
def runPlanAux (ex : Exec) : List String → Registry → World → List String → RunState
  | [], r, w, done => ⟨r, w, done.reverse, none⟩
  | n :: rest, r, w, done =>
    match lookupStage r n with
    | none => ⟨r, w, done.reverse, some (n, EngineError.configError)⟩
    | some s =>
      match runStage ex w s with
      | (w', Except.error e) => ⟨r, w', done.reverse, some (n, e)⟩
      | (w', Except.ok s') => runPlanAux ex rest (updateReg r s') w' (n :: done)

/-- Modelled from the spec: the whole pipeline driver: load the
registry, compute the plan, run it.  A ConfigError or CycleError is
fatal before any stage command is invoked. -/
def runPipeline (ex : Exec) (r : Registry) (w : World) : Except EngineError RunState :=
  match loadRegistry r with
  | Except.error e => Except.error e
  | Except.ok r' =>
    match plan r' w with
    | Except.error e => Except.error e
    | Except.ok p => Except.ok (runPlanAux ex p r' w [])

/-- The shape of a stage: its name together with its dependency and
output paths — everything the graph structure depends on. -/
def stageShape (s : Stage) : String × List String × List String :=
  (s.name, s.deps.map (fun d => d.path), outPaths s)

def regShape (r : Registry) : List (String × List String × List String) :=
  r.map stageShape

/-- Position of a name in a list (length of the list when absent). -/
def pos (l : List String) (a : String) : Nat :=
  match l with
  | [] => 0
  | b :: t => if a == b then 0 else pos t a + 1

/-- Cross-stage recorded-fingerprint consistency of the registry along
producer-consumer edges: whenever an output path of one stage equals a
dependency path of another (or the same) stage, the recorded hash and
size agree. -/
def edgeConsistent (r : Registry) : Bool :=
  r.all (fun s => r.all (fun t =>
    s.outs.all (fun o => t.deps.all (fun d =>
      o.path != d.path || (o.hash == d.hash && o.size == d.size)))))

/-- The frame contract of an external command of a stage (section 6:
collaborators interact with the engine solely through their declared
output files): a successful run changes no path outside the stage's
declared outputs, and the files it writes at its declared output paths
are readable. -/
def stageFrame (ex : Exec) (c : String) (s : Stage) : Prop :=
  ∀ fs fs', ex c fs = some fs' →
    (∀ p, producesPath s p = false → fs' p = fs p) ∧
    (∀ o, o ∈ s.outs → ∀ fl, fs' o.path = some fl → fl.readable = true)

/-- Invariant carried along a run (without the filesystem-stability
clause, which a failing command may break for its own outputs): the
world's parameters and commands are unchanged, the registry keeps its
graph shape, entries of unprocessed stages are untouched, processed
stages are fresh, and stages that were never planned are fresh. -/
structure RunInvCore (r : Registry) (w : World) (staleSet done : List String)
    (rk : Registry) (wk : World) : Prop where
  params_eq : wk.params = w.params
  cmds_eq : wk.cmds = w.cmds
  shape_eq : regShape rk = regShape r
  untouched : ∀ m, m ∉ done → lookupStage rk m = lookupStage r m
  fresh_done : ∀ m ∈ done, ∃ s, lookupStage rk m = some s ∧ directlyStale wk s = false
  fresh_unplanned : ∀ m ∈ stageNames r, m ∉ staleSet →
      ∃ s, lookupStage rk m = some s ∧ directlyStale wk s = false

/-- The full invariant: additionally, a path whose producers have all
not yet run holds its initial content. -/
structure RunInv (r : Registry) (w : World) (staleSet done : List String)
    (rk : Registry) (wk : World) extends
      RunInvCore r w staleSet done rk wk : Prop where
  fs_stable : ∀ pth, (∀ u ∈ r, producesPath u pth = true → u.name ∉ done) →
      wk.fs pth = w.fs pth

/-- The planned sequence once the topological order is known. -/
def planList (r : Registry) (w : World) (order : List String) : List String :=
  order.filter (fun n => (staleFold r w order).contains n)

/-- The standing hypotheses of a run: a well-formed acyclic registry,
commands that write only their declared outputs and write readable
files, initial presence of source inputs nobody produces, and presence
of every declared parameter. -/
structure RunCtx (ex : Exec) (r : Registry) (w : World) (order : List String) : Prop where
  hnd : (stageNames r).Nodup
  hdisj : dupOutProducer r = false
  ht : topoSort r = Except.ok order
  hframe : ∀ s ∈ r, stageFrame ex (w.cmds s.name) s
  hinputs : ∀ s ∈ r, ∀ d ∈ s.deps, producersOf r d.path = [] →
      ∃ f, w.fs d.path = some f ∧ f.readable = true
  hpar : ∀ s ∈ r, ∀ p ∈ s.params, ∃ v, w.params p.source p.key = some v

/-- Stage `preprocess` of src/dvc.lock. -/
def stage_preprocess : Stage :=
  { name := "preprocess",
    cmd := "preprocess -v -i data/raw/train.csv -o data/processed/data.csv",
    deps := [⟨"data/raw/train.csv", "80ccab65fb115cbad143dbbd2bcd5577", 460676⟩],
    outs := [⟨"data/processed/data.csv", "876a2fc347a41d01c7dbf64aadef2c9e", 490648⟩] }

/-- Stage `preprocess_test` of src/dvc.lock. -/
def stage_preprocess_test : Stage :=
  { name := "preprocess_test",
    cmd := "preprocess -v -i data/raw/test.csv -o data/processed/test.csv",
    deps := [⟨"data/raw/test.csv", "dcec4b79bf9c7317bd9e17789bf888f0", 451405⟩,
             ⟨"src/house_prices/preprocess.py", "c99cedc5795a59ddcda7435ce2cc0373", 5532⟩],
    outs := [⟨"data/processed/test.csv", "b0c399115aa5e36d33eeb1be5d3dd397", 549226⟩] }

/-- Stage `preprocess_train` of src/dvc.lock. -/
def stage_preprocess_train : Stage :=
  { name := "preprocess_train",
    cmd := "preprocess -v -i data/splitted/train.csv -o data/processed/train.csv",
    deps := [⟨"data/splitted/train.csv", "8e25551b3e6c09cfe85c8426e6c2f0d7", 319554⟩,
             ⟨"src/house_prices/preprocess.py", "c99cedc5795a59ddcda7435ce2cc0373", 5532⟩],
    outs := [⟨"data/processed/train.csv", "48f070665c5c4c00dab27b1d0eb25a11", 372920⟩] }

/-- Stage `split` of src/dvc.lock. -/
def stage_split : Stage :=
  { name := "split",
    cmd := "split -v -i data/raw/train.csv -t data/splitted/train.csv -e data/splitted/validation.csv",
    deps := [⟨"data/raw/train.csv", "80ccab65fb115cbad143dbbd2bcd5577", 460676⟩,
             ⟨"src/house_prices/split.py", "5817b630e41e46e450c23f2482d05b00", 3908⟩],
    params := [⟨"params.yaml", "split.random_state", "42"⟩,
               ⟨"params.yaml", "split.test_size", "0.3"⟩],
    outs := [⟨"data/splitted/train.csv", "8e25551b3e6c09cfe85c8426e6c2f0d7", 319554⟩,
             ⟨"data/splitted/validation.csv", "4ab1d881dc35d57b19a1570c5a6cb23f", 137573⟩] }

/-- Stage `train_lm` of src/dvc.lock. -/
def stage_train_lm : Stage :=
  { name := "train_lm",
    cmd := "train_lm -v -i data/modelling/train.csv -o models/lm.joblib",
    deps := [⟨"data/modelling/train.csv", "e648688724b7d1236229794dc173f6cd", 368980⟩,
             ⟨"src/house_prices/modelling/feature_selection.py", "2c5ec7d88870743bcfb91aa93c6f7922", 1416⟩,
             ⟨"src/house_prices/modelling/train_lm.py", "7d3fc8c41c5ca95ae8be67c2131c43e0", 3008⟩],
    outs := [⟨"models/lm.joblib", "fca329d800b593505fbcf85e1c05b216", 27059⟩] }

/-- Stage `train_lm_ridge` of src/dvc.lock. -/
def stage_train_lm_ridge : Stage :=
  { name := "train_lm_ridge",
    cmd := "train_lm_ridge -v -i data/modelling/train.csv -o models/lm_ridge.joblib",
    deps := [⟨"data/modelling/train.csv", "e648688724b7d1236229794dc173f6cd", 368980⟩,
             ⟨"src/house_prices/modelling/feature_selection.py", "2c5ec7d88870743bcfb91aa93c6f7922", 1416⟩,
             ⟨"src/house_prices/modelling/train_lm_ridge.py", "da3278673e8005f72c509b936de3e9d3", 3695⟩],
    outs := [⟨"models/lm_ridge.joblib", "2854bc864c82d38b4b87e91d91dbebb2", 38399⟩] }

/-- Stage `train_random_forest` of src/dvc.lock. -/
def stage_train_random_forest : Stage :=
  { name := "train_random_forest",
    cmd := "train_random_forest -v -i data/modelling/train.csv -o models/random_forest.joblib",
    deps := [⟨"data/modelling/train.csv", "e648688724b7d1236229794dc173f6cd", 368980⟩,
             ⟨"src/house_prices/modelling/feature_selection.py", "2c5ec7d88870743bcfb91aa93c6f7922", 1416⟩,
             ⟨"src/house_prices/modelling/train_random_forest.py", "9c0345579a71bd85dcf5b1ec90bffdb2", 3804⟩],
    outs := [⟨"models/random_forest.joblib", "a31dd658b6b944a7846be21e7e3a772b", 54981375⟩] }

/-- Stage `random_forest` of src/dvc.lock. -/
def stage_random_forest : Stage :=
  { name := "random_forest",
    cmd := "random_forest -v -i data/processed/train.csv -o models/random_forest.joblib",
    deps := [⟨"data/processed/train.csv", "48f070665c5c4c00dab27b1d0eb25a11", 372920⟩,
             ⟨"src/house_prices/ml/random_forest.py", "d3ecb4397acd244d4ebb74b7bb919542", 3231⟩,
             ⟨"src/house_prices/transformation.py", "64cfed066fbf7213c9b32cac65c79eb5", 3111⟩],
    outs := [⟨"models/random_forest.joblib", "88cefae434498161364388a4a76af69b", 15130591⟩] }

/-- Stage `linear_regression` of src/dvc.lock. -/
def stage_linear_regression : Stage :=
  { name := "linear_regression",
    cmd := "linear_regression -v -i data/processed/train.csv -o models/linear_regression.joblib",
    deps := [⟨"data/processed/train.csv", "48f070665c5c4c00dab27b1d0eb25a11", 372920⟩,
             ⟨"src/house_prices/ml/linear_regression.py", "811cd6509d0d95a281482f47861f7c4a", 2600⟩,
             ⟨"src/house_prices/transformation.py", "64cfed066fbf7213c9b32cac65c79eb5", 3111⟩],
    outs := [⟨"models/linear_regression.joblib", "bf2f2a1a194cf7a7755773ebf59d0604", 32321⟩] }

/-- Stage `linear_ridge_regression` of src/dvc.lock. -/
def stage_linear_ridge_regression : Stage :=
  { name := "linear_ridge_regression",
    cmd := "linear_ridge_regression -v -i data/processed/train.csv -o models/linear_ridge_regression.joblib",
    deps := [⟨"data/processed/train.csv", "48f070665c5c4c00dab27b1d0eb25a11", 372920⟩,
             ⟨"src/house_prices/ml/linear_ridge_regression.py", "6875c6574ab1c5b5dee335909af7fc7f", 3265⟩,
             ⟨"src/house_prices/transformation.py", "64cfed066fbf7213c9b32cac65c79eb5", 3111⟩],
    outs := [⟨"models/linear_ridge_regression.joblib", "9b02610b7ae50be4b6d871fa150e0a4c", 40639⟩] }

/-- Stage `linear_lasso_regression` of src/dvc.lock. -/
def stage_linear_lasso_regression : Stage :=
  { name := "linear_lasso_regression",
    cmd := "linear_lasso_regression -v -i data/modelling/train.csv -o models/linear_lasso_regression.joblib",
    deps := [⟨"data/modelling/train.csv", "0a1b726fbc565b2cee6fbba92258ace4", 364749⟩,
             ⟨"src/house_prices/ml/linear_lasso_regression.py", "06eee615aed8e27594e8a8db647af4a3", 3159⟩,
             ⟨"src/house_prices/modelling.py", "647ba20ecc6aee472fa0fc92fbe5c732", 2945⟩],
    outs := [⟨"models/linear_lasso_regression.joblib", "38fb669c2277475cca7e05eb3d267325", 40655⟩] }

/-- Stage `gradient_boosting` of src/dvc.lock. -/
def stage_gradient_boosting : Stage :=
  { name := "gradient_boosting",
    cmd := "gradient_boosting -v -i data/processed/train.csv -o models/gradient_boosting.joblib",
    deps := [⟨"data/processed/train.csv", "48f070665c5c4c00dab27b1d0eb25a11", 372920⟩,
             ⟨"src/house_prices/ml/gradient_boosting.py", "45b43398f470f55174327c9602b50a99", 3354⟩,
             ⟨"src/house_prices/transformation.py", "64cfed066fbf7213c9b32cac65c79eb5", 3111⟩],
    outs := [⟨"models/gradient_boosting.joblib", "eba7607e5f209e187c0c06f4cb841d52", 2356271⟩] }

/-- Stage `preprocess_validation` of src/dvc.lock. -/
def stage_preprocess_validation : Stage :=
  { name := "preprocess_validation",
    cmd := "preprocess -v -i data/splitted/validation.csv -o data/processed/validation.csv",
    deps := [⟨"data/splitted/validation.csv", "4ab1d881dc35d57b19a1570c5a6cb23f", 137573⟩,
             ⟨"src/house_prices/preprocess.py", "c99cedc5795a59ddcda7435ce2cc0373", 5532⟩],
    outs := [⟨"data/processed/validation.csv", "8c0dcd0f9acb104bdbd38dd630d017d0", 160335⟩] }

/-- The registry persisted in src/dvc.lock, stages in declaration order. -/
def houseRegistry : Registry :=
  [stage_preprocess, stage_preprocess_test, stage_preprocess_train, stage_split,
   stage_train_lm, stage_train_lm_ridge, stage_train_random_forest, stage_random_forest,
   stage_linear_regression, stage_linear_ridge_regression, stage_linear_lasso_regression,
   stage_gradient_boosting, stage_preprocess_validation]

/-! Concrete scenarios used to exercise the engine theorems. -/

/-- A one-stage scenario for idempotence: the stage is stale (edited
command, missing output); its command writes the declared output. -/
def wStageA : Stage :=
  { name := "A", cmd := "old-cmd-A",
    deps := [⟨"in.txt", digestStr "hello", 5⟩],
    outs := [⟨"out.txt", "stale-hash", 0⟩] }

def wReg2 : Registry := [wStageA]

def wWorld2 : World :=
  { fs := fun p => if p == "in.txt" then some ⟨"hello", 1, 644, true⟩ else none,
    params := fun _ _ => none,
    cmds := fun _ => "cmd-A" }

def wExec2 : Exec := fun c fs =>
  if c == "cmd-A"
  then some (fun p => if p == "out.txt" then some ⟨"world", 2, 644, true⟩ else fs p)
  else none

/-- A two-stage chain for forward propagation: `A3` produces `mid.txt`
which `B3` consumes; `A3`'s raw input content differs from its record. -/
def fStageA3 : Stage :=
  { name := "A3", cmd := "ca",
    deps := [⟨"raw.txt", "oldhash", 1⟩], outs := [⟨"mid.txt", "mh", 1⟩] }

def fStageB3 : Stage :=
  { name := "B3", cmd := "cb",
    deps := [⟨"mid.txt", "mh", 1⟩], outs := [⟨"fin.txt", "fh", 1⟩] }

def fReg3 : Registry := [fStageA3, fStageB3]

def fWorld3 : World :=
  { fs := fun p => if p == "raw.txt" then some ⟨"new", 0, 0, true⟩ else none,
    params := fun _ _ => none,
    cmds := fun n => if n == "A3" then "ca" else "cb" }

/-- A three-stage linear chain for partial-failure resumability: `A4`
succeeds, `B4`'s command fails, `C4` is downstream of `B4`. -/
def c4A : Stage :=
  { name := "A4", cmd := "ca4",
    deps := [⟨"r.txt", digestStr "r", 1⟩], outs := [⟨"a.txt", "xh", 1⟩] }

def c4B : Stage :=
  { name := "B4", cmd := "cb4",
    deps := [⟨"a.txt", "yh", 1⟩], outs := [⟨"b.txt", "zh", 1⟩] }

def c4C : Stage :=
  { name := "C4", cmd := "cc4",
    deps := [⟨"b.txt", "wh", 1⟩], outs := [⟨"c.txt", "vh", 1⟩] }

def c4Reg : Registry := [c4A, c4B, c4C]

def c4World : World :=
  { fs := fun p => if p == "r.txt" then some ⟨"r", 0, 0, true⟩ else none,
    params := fun _ _ => none,
    cmds := fun n => if n == "A4" then "ca4" else if n == "B4" then "cb4" else "cc4" }

def c4Exec : Exec := fun c fs =>
  if c == "ca4"
  then some (fun p => if p == "a.txt" then some ⟨"aout", 0, 0, true⟩ else fs p)
  else none

/-- Two independent stale stages where the first one fails: the second
is planned but never attempted, and is not downstream of the first. -/
def x4B : Stage := { name := "B", cmd := "cb", outs := [⟨"b.out", "bh", 1⟩] }

def x4C : Stage := { name := "C", cmd := "cc", outs := [⟨"c.out", "ch", 1⟩] }

def x4Reg : Registry := [x4B, x4C]

def x4World : World :=
  { fs := fun _ => none,
    params := fun _ _ => none,
    cmds := fun n => if n == "B" then "cb" else "cc" }

def x4Exec : Exec := fun _ _ => none

/-- A two-stage cyclic registry: each stage consumes the other's output. -/
def cycX : Stage :=
  { name := "X", cmd := "cx", deps := [⟨"y.out", "h", 1⟩], outs := [⟨"x.out", "h", 1⟩] }

def cycY : Stage :=
  { name := "Y", cmd := "cy", deps := [⟨"x.out", "h", 1⟩], outs := [⟨"y.out", "h", 1⟩] }

def cycReg : Registry := [cycX, cycY]

def cycWorld : World :=
  { fs := fun _ => none, params := fun _ _ => none, cmds := fun _ => "c" }

/-- A stage whose command exits successfully without producing the
declared output. -/
def c6S : Stage := { name := "S6", cmd := "cs6", outs := [⟨"o6.txt", "h", 1⟩] }

def c6Reg : Registry := [c6S]

def c6World : World :=
  { fs := fun _ => none, params := fun _ _ => none, cmds := fun _ => "cs6" }

def c6Exec : Exec := fun c fs => if c == "cs6" then some fs else none

def c6Exec2 : Exec := fun _ _ => none

/-- Three stages where `C7` produces the input of `A7` while `B7` is
unconstrained: Kahn's algorithm must emit `B7` before `A7` even though
`A7` is declared first and the two are unconstrained. -/
def c7A : Stage :=
  { name := "A7", cmd := "ca", deps := [⟨"c.out", "h", 1⟩], outs := [⟨"a.out", "h", 1⟩] }

def c7B : Stage := { name := "B7", cmd := "cb", outs := [⟨"b.out", "h", 1⟩] }

def c7C : Stage := { name := "C7", cmd := "cc", outs := [⟨"c.out", "h", 1⟩] }

def c7Reg : Registry := [c7A, c7B, c7C]

def c7World : World :=
  { fs := fun _ => none, params := fun _ _ => none, cmds := fun _ => "z" }

/-- A filesystem with two byte-identical files under different metadata,
one unreadable file, and nothing else. -/
def c8fs : FS := fun p =>
  if p == "f1" then some ⟨"same", 1, 600, true⟩
  else if p == "f2" then some ⟨"same", 99, 777, true⟩
  else if p == "f3" then some ⟨"secret", 0, 0, false⟩
  else none

/-! Basic helper lemmas. -/

theorem contains_iff {l : List String} {a : String} : l.contains a = true ↔ a ∈ l := by
  induction l with
  | nil => simp
  | cons b t ih => simp [List.contains] at ih ⊢

theorem contains_false {l : List String} {a : String} (h : ¬l.contains a = true) : a ∉ l :=
  fun hm => h (contains_iff.2 hm)

theorem anyShared_false {l1 l2 : List String} (h : ¬anyShared l1 l2 = true) :
    ∀ p, p ∈ l1 → p ∉ l2 := by
  intro p hp
  unfold anyShared at h
  rw [List.any_eq_true] at h
  push_neg at h
  exact contains_false (h p hp)

/-- A registry with no duplicate output producer has pairwise disjoint
output path sets across stages of different names. -/
theorem dupOut_disjoint {r : Registry} (h : dupOutProducer r = false) :
    ∀ s ∈ r, ∀ t ∈ r, s.name ≠ t.name → ∀ p, producesPath s p = true → producesPath t p = false := by
  induction r with
  | nil => intro s hs; exact absurd hs (List.not_mem_nil s)
  | cons a rest ih =>
    unfold dupOutProducer at h
    rw [Bool.or_eq_false_iff] at h
    obtain ⟨h1, h2⟩ := h
    rw [List.any_eq_false] at h1
    intro s hs t ht hne p hsp
    rcases List.mem_cons.1 hs with hsa | hsr
    · rcases List.mem_cons.1 ht with hta | htr
      · exact absurd (hsa ▸ hta ▸ rfl) hne
      · subst hsa
        have := anyShared_false (h1 t htr) p (contains_iff.1 hsp)
        cases hcp : producesPath t p with
        | false => rfl
        | true => exact absurd (contains_iff.1 hcp) this
    · rcases List.mem_cons.1 ht with hta | htr
      · subst hta
        cases hcp : producesPath t p with
        | false => rfl
        | true =>
          exact absurd (contains_iff.1 hsp)
            (anyShared_false (h1 s hsr) p (contains_iff.1 hcp))
      · exact ih h2 s hsr t htr hne p hsp

/-! Claim theorems on the persisted registry data (src/dvc.lock). -/

/-- C1 (counterexample): the claim "for every pair of distinct stages in
the registry, their sets of declared output paths are disjoint" is false
on the persisted registry: `train_random_forest` and `random_forest` are
distinct stages and both declare the output path
`models/random_forest.joblib`. -/
theorem duplicate_producer_in_lockfile :
    lookupStage houseRegistry "train_random_forest" = some stage_train_random_forest ∧
    lookupStage houseRegistry "random_forest" = some stage_random_forest ∧
    stage_train_random_forest.name ≠ stage_random_forest.name ∧
    producesPath stage_train_random_forest "models/random_forest.joblib" = true ∧
    producesPath stage_random_forest "models/random_forest.joblib" = true ∧
    dupOutProducer houseRegistry = true := by
  refine ⟨by decide, by decide, by decide, by decide, by decide, by decide⟩

/-- C1 (amended): duplicate output producers are rejected at load time
with ConfigError before anything runs — in particular the persisted
registry, which contains one, is rejected — and any registry passing the
load-time check has pairwise disjoint output sets. -/
theorem load_rejects_duplicate_producer :
    loadRegistry houseRegistry = Except.error EngineError.configError ∧
    ∀ r : Registry, loadOk r = true →
      ∀ s ∈ r, ∀ t ∈ r, s.name ≠ t.name →
        ∀ p, producesPath s p = true → producesPath t p = false := by
  constructor
  · decide
  · intro r hr
    unfold loadOk at hr
    rw [Bool.not_eq_true', Bool.or_eq_false_iff] at hr
    exact dupOut_disjoint hr.2

/-- C1 (witness): the load-time guarantee applied to the concrete
three-stage chain registry: `B4` does not produce `A4`'s output path. -/
theorem load_rejects_duplicate_producer_witness :
    producesPath c4B "a.txt" = false :=
  load_rejects_duplicate_producer.2 c4Reg (by decide) c4A (List.Mem.head _)
    c4B (List.Mem.tail _ (List.Mem.head _)) (by decide) "a.txt" (by decide)

/-- C9: along every producer-consumer edge of the persisted registry
(an output path of one stage equalling a dependency path of another),
the recorded hash and size in the producer's outs entry equal the
recorded hash and size in the consumer's deps entry. -/
theorem lockfile_edge_fingerprints_consistent : edgeConsistent houseRegistry = true := by
  decide

/-- C10: the persisted registry records two different fingerprints for
the dependency path `data/modelling/train.csv` (in `train_lm` and in
`linear_lasso_regression`), and no stage produces that path: recorded
fingerprint agreement holds only along producer-consumer edges. -/
theorem lockfile_unproduced_path_divergent_fingerprints :
    (stage_train_lm.deps.filter (fun d => d.path == "data/modelling/train.csv")).map
        (fun d => (d.hash, d.size)) = [("e648688724b7d1236229794dc173f6cd", 368980)] ∧
    (stage_linear_lasso_regression.deps.filter (fun d => d.path == "data/modelling/train.csv")).map
        (fun d => (d.hash, d.size)) = [("0a1b726fbc565b2cee6fbba92258ace4", 364749)] ∧
    ("e648688724b7d1236229794dc173f6cd" : String) ≠ "0a1b726fbc565b2cee6fbba92258ace4" ∧
    producersOf houseRegistry "data/modelling/train.csv" = [] ∧
    lookupStage houseRegistry "train_lm" = some stage_train_lm ∧
    lookupStage houseRegistry "linear_lasso_regression" = some stage_linear_lasso_regression := by
  refine ⟨by decide, by decide, by decide, by decide, by decide, by decide⟩

/-- C8: the content hasher is a function of the byte content alone — two
files with identical bytes fingerprint identically whatever their mtime,
permissions or paths — and fingerprinting a missing or unreadable path
fails with IOError. -/
theorem fingerprint_content_only :
    (∀ (fs : FS) (p1 p2 : String) (f1 f2 : File),
        fs p1 = some f1 → fs p2 = some f2 →
        f1.readable = true → f2.readable = true →
        f1.content = f2.content →
        fingerprint fs p1 = fingerprint fs p2) ∧
    (∀ (fs : FS) (p : String), fs p = none →
        fingerprint fs p = Except.error EngineError.ioError) ∧
    (∀ (fs : FS) (p : String) (f : File), fs p = some f → f.readable = false →
        fingerprint fs p = Except.error EngineError.ioError) := by
  refine ⟨?_, ?_, ?_⟩
  · intro fs p1 p2 f1 f2 h1 h2 hr1 hr2 hc
    unfold fingerprint
    rw [h1, h2]
    simp [hr1, hr2, hc]
  · intro fs p h
    unfold fingerprint
    rw [h]
  · intro fs p f h hr
    unfold fingerprint
    rw [h]
    simp [hr]

/-- C8 (witness): on the concrete filesystem, the two byte-identical
files with different metadata fingerprint identically, and the missing
and unreadable paths fail with IOError. -/
theorem fingerprint_content_only_witness :
    fingerprint c8fs "f1" = fingerprint c8fs "f2" ∧
    fingerprint c8fs "nowhere" = Except.error EngineError.ioError ∧
    fingerprint c8fs "f3" = Except.error EngineError.ioError :=
  ⟨fingerprint_content_only.1 c8fs "f1" "f2" ⟨"same", 1, 600, true⟩ ⟨"same", 99, 777, true⟩
      rfl rfl rfl rfl rfl,
    fingerprint_content_only.2.1 c8fs "nowhere" rfl,
    fingerprint_content_only.2.2 c8fs "f3" ⟨"secret", 0, 0, false⟩ rfl rfl⟩

/-! Position-in-list helpers. -/

theorem pos_cons (b : String) (t : List String) (a : String) :
    pos (b :: t) a = if a == b then 0 else pos t a + 1 := rfl

theorem pos_cons_self (t : List String) (a : String) : pos (a :: t) a = 0 := by
  rw [pos_cons, if_pos (by simp)]

theorem pos_lt_length_of_mem {l : List String} {a : String} (h : a ∈ l) : pos l a < l.length := by
  induction l with
  | nil => exact absurd h (List.not_mem_nil a)
  | cons b t ih =>
    rw [pos_cons]
    by_cases hab : (a == b) = true
    · rw [if_pos hab]
      simp
    · rw [if_neg hab]
      have ham : a ∈ t := by
        rcases List.mem_cons.1 h with h1 | h1
        · exact absurd (by simp [h1]) hab
        · exact h1
      have := ih ham
      simp only [List.length_cons]
      omega

theorem pos_append_mem {l1 : List String} (l2 : List String) {a : String} (h : a ∈ l1) :
    pos (l1 ++ l2) a < l1.length := by
  induction l1 with
  | nil => exact absurd h (List.not_mem_nil a)
  | cons b t ih =>
    rw [List.cons_append, pos_cons]
    by_cases hab : (a == b) = true
    · rw [if_pos hab]
      simp
    · rw [if_neg hab]
      have ham : a ∈ t := by
        rcases List.mem_cons.1 h with h1 | h1
        · exact absurd (by simp [h1]) hab
        · exact h1
      have := ih ham
      simp only [List.length_cons]
      omega

theorem pos_append_not_mem {l1 l2 : List String} {a : String} (h : a ∉ l1) :
    pos (l1 ++ l2) a = l1.length + pos l2 a := by
  induction l1 with
  | nil => simp
  | cons b t ih =>
    have hab : (a == b) = false := by
      rw [beq_eq_false_iff_ne]
      intro he
      exact h (he ▸ List.Mem.head t)
    rw [List.cons_append, pos_cons, if_neg (by simp [hab]),
      ih (fun hm => h (List.Mem.tail b hm))]
    simp only [List.length_cons]
    omega

/-- In a list split as `l1 ++ x :: l2` with `x` not in `l1`, every
member of `l1` sits strictly before `x`. -/
theorem pos_lt_of_split {l1 l2 : List String} {a x : String}
    (ha : a ∈ l1) (hx : x ∉ l1) : pos (l1 ++ x :: l2) a < pos (l1 ++ x :: l2) x := by
  have h1 : pos (l1 ++ x :: l2) a < l1.length := pos_append_mem _ ha
  have h2 : pos (l1 ++ x :: l2) x = l1.length := by
    rw [pos_append_not_mem hx, pos_cons_self]
    omega
  omega

/-- A nodup list split around an element: the element avoids both sides. -/
theorem nodup_split {l1 l2 : List String} {x : String} (h : (l1 ++ x :: l2).Nodup) :
    x ∉ l1 ∧ x ∉ l2 := by
  rw [List.nodup_append] at h
  refine ⟨fun hm => h.2.2 hm (List.Mem.head l2), (List.nodup_cons.1 h.2.1).1⟩

/-! Stage lookup helpers. -/

theorem lookup_name {r : Registry} {n : String} {s : Stage}
    (h : lookupStage r n = some s) : s.name = n := by
  have := List.find?_some h
  simpa using this

theorem lookup_mem {r : Registry} {n : String} {s : Stage}
    (h : lookupStage r n = some s) : s ∈ r :=
  List.mem_of_find?_eq_some h

theorem lookup_none {r : Registry} {n : String}
    (h : lookupStage r n = none) : n ∉ stageNames r := by
  intro hm
  rcases List.mem_map.1 hm with ⟨s, hs, hsn⟩
  have hp : (s.name == n) = true := by
    subst hsn
    exact beq_self_eq_true _
  have := List.find?_eq_none.1 h s hs
  exact this hp

theorem lookup_mem_names {r : Registry} {n : String}
    (h : n ∈ stageNames r) : ∃ s, lookupStage r n = some s ∧ s ∈ r ∧ s.name = n := by
  cases hl : lookupStage r n with
  | none => exact absurd h (lookup_none hl)
  | some s => exact ⟨s, rfl, lookup_mem hl, lookup_name hl⟩

theorem names_nodup_unique {r : Registry} (hnd : (stageNames r).Nodup) :
    ∀ s ∈ r, ∀ t ∈ r, s.name = t.name → s = t := by
  induction r with
  | nil => intro s hs; exact absurd hs (List.not_mem_nil s)
  | cons a rest ih =>
    have hnd' : (stageNames rest).Nodup := (List.nodup_cons.1 hnd).2
    have hna : a.name ∉ stageNames rest := (List.nodup_cons.1 hnd).1
    intro s hs t ht he
    rcases List.mem_cons.1 hs with h1 | h1
    · rcases List.mem_cons.1 ht with h2 | h2
      · rw [h1, h2]
      · subst h1
        exact absurd (List.mem_map.2 ⟨t, h2, he.symm⟩) hna
    · rcases List.mem_cons.1 ht with h2 | h2
      · subst h2
        exact absurd (List.mem_map.2 ⟨s, h1, he⟩) hna
      · exact ih hnd' s h1 t h2 he

theorem lookup_of_mem {r : Registry} {s : Stage}
    (hnd : (stageNames r).Nodup) (hm : s ∈ r) : lookupStage r s.name = some s := by
  have hn : s.name ∈ stageNames r := List.mem_map.2 ⟨s, hm, rfl⟩
  rcases lookup_mem_names hn with ⟨t, hl, htm, htn⟩
  rw [hl, names_nodup_unique hnd s hm t htm htn.symm]

/-! Membership helpers for the derived graph. -/

theorem mem_producersOf {r : Registry} {pth a : String} :
    a ∈ producersOf r pth ↔ ∃ s ∈ r, producesPath s pth = true ∧ s.name = a := by
  unfold producersOf
  rw [List.mem_map]
  constructor
  · rintro ⟨s, hs, hsn⟩
    rcases List.mem_filter.1 hs with ⟨hsr, hsp⟩
    exact ⟨s, hsr, hsp, hsn⟩
  · rintro ⟨s, hsr, hsp, hsn⟩
    exact ⟨s, List.mem_filter.2 ⟨hsr, hsp⟩, hsn⟩

theorem mem_upstreamOfPaths {r : Registry} {ps : List String} {a : String} :
    a ∈ upstreamOfPaths r ps ↔ ∃ p ∈ ps, a ∈ producersOf r p := by
  induction ps with
  | nil => simp [upstreamOfPaths]
  | cons p t ih =>
    unfold upstreamOfPaths at ih ⊢
    rw [List.foldr_cons, List.mem_append, ih]
    simp

theorem mem_upstream {r : Registry} {s : Stage} {a : String} :
    a ∈ upstreamNames r s ↔ ∃ d ∈ s.deps, a ∈ producersOf r d.path := by
  unfold upstreamNames
  rw [mem_upstreamOfPaths]
  constructor
  · rintro ⟨p, hp, hpa⟩
    rcases List.mem_map.1 hp with ⟨d, hd, hdp⟩
    exact ⟨d, hd, hdp ▸ hpa⟩
  · rintro ⟨d, hd, hda⟩
    exact ⟨d.path, List.mem_map.2 ⟨d, hd, rfl⟩, hda⟩

/-! Topological sort: soundness lemmas. -/

theorem topoAux_error {r : Registry} :
    ∀ fuel (rem : Registry) (done : List String) {e : EngineError},
      topoAux r fuel done rem = Except.error e → e = EngineError.cycleError := by
  intro fuel
  induction fuel with
  | zero =>
    intro rem done e h
    cases rem with
    | nil => simp [topoAux] at h
    | cons a t => simp [topoAux] at h; exact h.symm
  | succ n ih =>
    intro rem done e h
    cases rem with
    | nil => simp [topoAux] at h
    | cons a t =>
      simp only [topoAux] at h
      cases hf : (a :: t).find? (ready r done) with
      | none => rw [hf] at h; simp at h; exact h.symm
      | some s => rw [hf] at h; exact ih _ _ h

theorem stageNames_filter (rem : Registry) (x : String) :
    stageNames (rem.filter (fun t => t.name != x)) = (stageNames rem).filter (fun m => m != x) := by
  induction rem with
  | nil => rfl
  | cons a t ih =>
    simp only [stageNames, List.map_cons, List.filter_cons] at ih ⊢
    cases ha : a.name != x with
    | true => simp [ha, ih]
    | false => simp [ha, ih]

theorem topoAux_mem {r : Registry} :
    ∀ fuel (rem : Registry) (done l : List String),
      topoAux r fuel done rem = Except.ok l →
      ∀ n, n ∈ l ↔ (n ∈ done ∨ n ∈ stageNames rem) := by
  intro fuel
  induction fuel with
  | zero =>
    intro rem done l h n
    cases rem with
    | nil =>
      simp only [topoAux, Except.ok.injEq] at h
      subst h
      simp [stageNames]
    | cons a t => simp [topoAux] at h
  | succ k ih =>
    intro rem done l h n
    cases rem with
    | nil =>
      simp only [topoAux, Except.ok.injEq] at h
      subst h
      simp [stageNames]
    | cons a t =>
      simp only [topoAux] at h
      cases hf : (a :: t).find? (ready r done) with
      | none => rw [hf] at h; simp at h
      | some s =>
        rw [hf] at h
        have hsm : s ∈ a :: t := List.mem_of_find?_eq_some hf
        have hsn : s.name ∈ stageNames (a :: t) := List.mem_map.2 ⟨s, hsm, rfl⟩
        have := ih _ _ _ h n
        rw [this, stageNames_filter]
        constructor
        · rintro (hd | hflt)
          · rcases List.mem_cons.1 hd with h1 | h1
            · exact Or.inr (h1 ▸ hsn)
            · exact Or.inl h1
          · exact Or.inr (List.mem_of_mem_filter hflt)
        · rintro (hd | hrem)
          · exact Or.inl (List.Mem.tail _ hd)
          · by_cases hn : n = s.name
            · exact Or.inl (hn ▸ List.Mem.head _)
            · refine Or.inr (List.mem_filter.2 ⟨hrem, ?_⟩)
              simp [hn]

theorem topoAux_nodup {r : Registry} :
    ∀ fuel (rem : Registry) (done l : List String),
      topoAux r fuel done rem = Except.ok l →
      done.Nodup → (∀ n ∈ done, n ∉ stageNames rem) → l.Nodup := by
  intro fuel
  induction fuel with
  | zero =>
    intro rem done l h hnd hdis
    cases rem with
    | nil =>
      simp only [topoAux, Except.ok.injEq] at h
      subst h
      exact List.nodup_reverse.2 hnd
    | cons a t => simp [topoAux] at h
  | succ k ih =>
    intro rem done l h hnd hdis
    cases rem with
    | nil =>
      simp only [topoAux, Except.ok.injEq] at h
      subst h
      exact List.nodup_reverse.2 hnd
    | cons a t =>
      simp only [topoAux] at h
      cases hf : (a :: t).find? (ready r done) with
      | none => rw [hf] at h; simp at h
      | some s =>
        rw [hf] at h
        have hsm : s ∈ a :: t := List.mem_of_find?_eq_some hf
        have hsn : s.name ∈ stageNames (a :: t) := List.mem_map.2 ⟨s, hsm, rfl⟩
        refine ih _ _ _ h (List.nodup_cons.2 ⟨fun hc => hdis s.name hc hsn, hnd⟩) ?_
        intro n hn
        rw [stageNames_filter]
        rcases List.mem_cons.1 hn with h1 | h1
        · intro hc
          have := (List.mem_filter.1 hc).2
          simp [h1] at this
        · intro hc
          exact hdis n h1 (List.mem_of_mem_filter hc)

theorem append_singleton_split {α : Type} {l l1 l2 : List α} {x m : α}
    (h : l ++ [x] = l1 ++ m :: l2) :
    (l2 = [] ∧ l1 = l ∧ m = x) ∨ ∃ l2', l2 = l2' ++ [x] ∧ l = l1 ++ m :: l2' := by
  rcases List.eq_nil_or_concat l2 with h2 | ⟨l2', y, h2⟩
  · subst h2
    have := List.append_inj' h (by simp)
    rcases this with ⟨he1, he2⟩
    simp at he2
    exact Or.inl ⟨rfl, he1.symm, he2.symm⟩
  · rw [List.concat_eq_append] at h2
    subst h2
    have heq : l ++ [x] = (l1 ++ m :: l2') ++ [y] := by
      rw [h]
      simp
    have := List.append_inj' heq (by simp)
    rcases this with ⟨he1, he2⟩
    simp at he2
    exact Or.inr ⟨l2', by rw [he2], he1⟩

theorem ready_upstream_done {r : Registry} {done : List String} {s : Stage}
    (h : ready r done s = true) : ∀ a ∈ upstreamNames r s, a ∈ done := by
  intro a ha
  unfold ready at h
  exact contains_iff.1 (List.all_eq_true.1 h a ha)

theorem topoAux_good {r : Registry} (hnd : (stageNames r).Nodup) :
    ∀ fuel (rem : Registry) (done l : List String),
      rem.Sublist r →
      (∀ l1 m l2, done.reverse = l1 ++ m :: l2 → ∀ s, lookupStage r m = some s →
        ∀ a ∈ upstreamNames r s, a ∈ l1) →
      topoAux r fuel done rem = Except.ok l →
      ∀ l1 m l2, l = l1 ++ m :: l2 → ∀ s, lookupStage r m = some s →
        ∀ a ∈ upstreamNames r s, a ∈ l1 := by
  intro fuel
  induction fuel with
  | zero =>
    intro rem done l hsub hdone h
    cases rem with
    | nil =>
      simp only [topoAux, Except.ok.injEq] at h
      subst h
      exact hdone
    | cons a t => simp [topoAux] at h
  | succ k ih =>
    intro rem done l hsub hdone h
    cases rem with
    | nil =>
      simp only [topoAux, Except.ok.injEq] at h
      subst h
      exact hdone
    | cons a t =>
      simp only [topoAux] at h
      cases hf : (a :: t).find? (ready r done) with
      | none => rw [hf] at h; simp at h
      | some s =>
        rw [hf] at h
        have hsm : s ∈ a :: t := List.mem_of_find?_eq_some hf
        have hsr : s ∈ r := hsub.subset hsm
        have hready : ready r done s = true := List.find?_some hf
        refine ih _ _ _ ((List.filter_sublist _).trans hsub) ?_ h
        intro l1 m l2 hsplit st hlook ha hup
        rw [List.reverse_cons] at hsplit
        rcases append_singleton_split hsplit with ⟨-, he1, he2⟩ | ⟨l2', -, he⟩
        · subst he2
          have hlooks : lookupStage r s.name = some s := lookup_of_mem hnd hsr
          rw [hlooks] at hlook
          cases hlook
          rw [he1]
          rw [List.mem_reverse]
          exact ready_upstream_done hready ha hup
        · exact hdone l1 m l2' he st hlook ha hup

/-! Topological sort: top-level corollaries. -/

theorem topoSort_mem {r : Registry} {order : List String}
    (h : topoSort r = Except.ok order) : ∀ n, n ∈ order ↔ n ∈ stageNames r := by
  intro n
  have := topoAux_mem r.length r [] order h n
  simpa using this

theorem topoSort_nodup {r : Registry} {order : List String}
    (h : topoSort r = Except.ok order) : order.Nodup :=
  topoAux_nodup r.length r [] order h List.nodup_nil (by simp)

theorem topoSort_good {r : Registry} {order : List String} (hnd : (stageNames r).Nodup)
    (h : topoSort r = Except.ok order) :
    ∀ l1 m l2, order = l1 ++ m :: l2 → ∀ s, lookupStage r m = some s →
      ∀ a ∈ upstreamNames r s, a ∈ l1 :=
  topoAux_good hnd r.length r [] order (List.Sublist.refl r) (by simp) h

theorem topoSort_error {r : Registry} {e : EngineError}
    (h : topoSort r = Except.error e) : e = EngineError.cycleError :=
  topoAux_error r.length r [] h

/-- A graph edge forces a strict precedence in the topological order. -/
theorem edge_pos_lt {r : Registry} {order : List String} {a b : String}
    (hnd : (stageNames r).Nodup) (ht : topoSort r = Except.ok order)
    (he : edgeB r a b = true) :
    a ∈ order ∧ b ∈ order ∧ pos order a < pos order b := by
  unfold edgeB at he
  cases hla : lookupStage r a with
  | none => rw [hla] at he; cases hlb : lookupStage r b <;> rw [hlb] at he <;> simp at he
  | some sa =>
    cases hlb : lookupStage r b with
    | none => rw [hla, hlb] at he; simp at he
    | some sb =>
      rw [hla, hlb] at he
      rcases List.any_eq_true.1 he with ⟨d, hd, hdp⟩
      have hmem_a : a ∈ stageNames r :=
        (lookup_name hla) ▸ List.mem_map.2 ⟨sa, lookup_mem hla, rfl⟩
      have hmem_b : b ∈ stageNames r :=
        (lookup_name hlb) ▸ List.mem_map.2 ⟨sb, lookup_mem hlb, rfl⟩
      have hao : a ∈ order := (topoSort_mem ht a).2 hmem_a
      have hbo : b ∈ order := (topoSort_mem ht b).2 hmem_b
      rcases List.append_of_mem hbo with ⟨l1, l2, hsplit⟩
      have hup : a ∈ upstreamNames r sb :=
        mem_upstream.2 ⟨d, hd, mem_producersOf.2 ⟨sa, lookup_mem hla, hdp, lookup_name hla⟩⟩
      have hal1 : a ∈ l1 := topoSort_good hnd ht l1 b l2 hsplit sb hlb a hup
      have hnodup : order.Nodup := topoSort_nodup ht
      rw [hsplit] at hnodup ⊢
      exact ⟨hsplit ▸ hao, hsplit ▸ hbo, pos_lt_of_split hal1 (nodup_split hnodup).1⟩

/-- A chain of edges forces a strict precedence from its head to its
last element. -/
theorem chain_pos_lt {r : Registry} {order : List String}
    (hnd : (stageNames r).Nodup) (ht : topoSort r = Except.ok order) :
    ∀ (l : List String) (x y : String), chainB r x (l ++ [y]) = true →
      pos order x < pos order y := by
  intro l
  induction l with
  | nil =>
    intro x y h
    simp only [List.nil_append, chainB, Bool.and_eq_true] at h
    exact (edge_pos_lt hnd ht h.1).2.2
  | cons b t ih =>
    intro x y h
    simp only [List.cons_append, chainB, Bool.and_eq_true] at h
    have h1 := (edge_pos_lt hnd ht h.1).2.2
    have h2 := ih b y h.2
    omega

/-! Load-time well-formedness. -/

theorem loadOk_parts {r : Registry} (h : loadOk r = true) :
    dupName r = false ∧ dupOutProducer r = false := by
  unfold loadOk at h
  rw [Bool.not_eq_true', Bool.or_eq_false_iff] at h
  exact h

theorem dupName_false_nodup {r : Registry} (h : dupName r = false) :
    (stageNames r).Nodup := by
  induction r with
  | nil => simp [stageNames]
  | cons a t ih =>
    unfold dupName at h
    rw [Bool.or_eq_false_iff] at h
    refine List.nodup_cons.2 ⟨fun hm => ?_, ih h.2⟩
    have hc : (stageNames t).contains a.name = true := contains_iff.2 hm
    rw [h.1] at hc
    exact Bool.false_ne_true hc

theorem loadOk_nodup {r : Registry} (h : loadOk r = true) : (stageNames r).Nodup :=
  dupName_false_nodup (loadOk_parts h).1

/-! C5: cycle rejection. -/

/-- C5: a registry whose derived dependency graph contains a cycle is
rejected by the planner with CycleError, and the pipeline driver
terminates with that error before invoking any stage command. -/
theorem cycle_rejected (r : Registry) (c : List String) (w : World) (ex : Exec)
    (hload : loadOk r = true) (hc : isCycle r c = true) :
    plan r w = Except.error EngineError.cycleError ∧
    runPipeline ex r w = Except.error EngineError.cycleError := by
  have hnd : (stageNames r).Nodup := loadOk_nodup hload
  have hplan : plan r w = Except.error EngineError.cycleError := by
    cases ht : topoSort r with
    | error e =>
      unfold plan
      rw [ht, topoSort_error ht]
    | ok order =>
      exfalso
      cases c with
      | nil => simp [isCycle] at hc
      | cons a rest =>
        simp only [isCycle] at hc
        exact absurd (chain_pos_lt hnd ht rest a a hc) (lt_irrefl _)
  refine ⟨hplan, ?_⟩
  unfold runPipeline loadRegistry
  rw [hload]
  simp [hplan]

/-- C5 (witness): the concrete two-stage cyclic registry is rejected
with CycleError and nothing is executed. -/
theorem cycle_rejected_witness :
    plan cycReg cycWorld = Except.error EngineError.cycleError ∧
    runPipeline x4Exec cycReg cycWorld = Except.error EngineError.cycleError :=
  cycle_rejected cycReg ["X", "Y"] cycWorld x4Exec (by decide) (by decide)

/-! C7: deterministic declaration-order tie-break. -/

theorem topoAux_noedge {r : Registry} :
    ∀ fuel (rem : Registry) (done : List String),
      (stageNames rem).Nodup →
      (∀ s ∈ rem, upstreamNames r s = []) → rem.length ≤ fuel →
      topoAux r fuel done rem = Except.ok (done.reverse ++ stageNames rem) := by
  intro fuel
  induction fuel with
  | zero =>
    intro rem done hnd' hno hlen
    cases rem with
    | nil => simp [topoAux, stageNames]
    | cons a t => simp at hlen
  | succ k ih =>
    intro rem done hnd' hno hlen
    cases rem with
    | nil => simp [topoAux, stageNames]
    | cons a t =>
      have hready : ready r done a = true := by
        unfold ready
        rw [hno a (List.Mem.head t)]
        rfl
      have hnd2 : a.name ∉ stageNames t ∧ (stageNames t).Nodup := by
        have hcn : (a.name :: stageNames t).Nodup := by
          simpa [stageNames] using hnd'
        exact ⟨(List.nodup_cons.1 hcn).1, (List.nodup_cons.1 hcn).2⟩
      have hfeq : t.filter (fun s => s.name != a.name) = t := by
        rw [List.filter_eq_self]
        intro s hs
        have hne : s.name ≠ a.name := by
          intro he
          exact hnd2.1 (List.mem_map.2 ⟨s, hs, he⟩)
        simp [hne]
      have hlen' : t.length ≤ k := by
        simp only [List.length_cons] at hlen
        omega
      simp only [topoAux]
      rw [List.find?_cons_of_pos _ hready]
      show topoAux r k (a.name :: done) ((a :: t).filter (fun s => s.name != a.name)) =
        Except.ok (done.reverse ++ stageNames (a :: t))
      have hstep : (a :: t).filter (fun s => s.name != a.name) = t := by
        rw [List.filter_cons, if_neg (by simp), hfeq]
      rw [hstep, ih t (a.name :: done) hnd2.2
        (fun s hs => hno s (List.Mem.tail a hs)) hlen']
      simp [stageNames]

/-- C7 (amended): for a registry whose stages have no dependency edges
at all, the topological order is exactly the declaration order, so the
plan lists the stale stages exactly in declaration order.  (For stages
that merely have no ordering constraint between each other this can
fail; see the counterexample.) -/
theorem declaration_order_plan (r : Registry) (w : World)
    (hload : loadOk r = true)
    (hnoedge : ∀ s ∈ r, upstreamNames r s = []) :
    topoSort r = Except.ok (stageNames r) ∧
    plan r w = Except.ok ((stageNames r).filter
      (fun n => (staleFold r w (stageNames r)).contains n)) := by
  have hnd : (stageNames r).Nodup := loadOk_nodup hload
  have ht : topoSort r = Except.ok (stageNames r) := by
    have := topoAux_noedge r.length r [] hnd hnoedge (by simp [stageNames])
    simpa [topoSort] using this
  refine ⟨ht, ?_⟩
  unfold plan
  rw [ht]

/-- C7 (witness): on the concrete two-root registry the planned order is
the declaration order restricted to the stale stages. -/
theorem declaration_order_plan_witness :
    topoSort x4Reg = Except.ok (stageNames x4Reg) ∧
    plan x4Reg x4World = Except.ok ((stageNames x4Reg).filter
      (fun n => (staleFold x4Reg x4World (stageNames x4Reg)).contains n)) :=
  declaration_order_plan x4Reg x4World (by decide) (by decide)

/-- C7 (counterexample): the general clause "any two stages with no
ordering constraint between them appear in declaration order" fails: in
`c7Reg` the stages `A7` and `B7` share no edge in either direction (the
only edge is `C7 → A7`), `A7` is declared first, yet every correct
topological order — and the planner's output — places `B7` before `A7`. -/
theorem tie_break_not_declaration_order :
    stageNames c7Reg = ["A7", "B7", "C7"] ∧
    edgeB c7Reg "A7" "B7" = false ∧ edgeB c7Reg "B7" "A7" = false ∧
    edgeB c7Reg "A7" "C7" = false ∧ edgeB c7Reg "C7" "B7" = false ∧
    edgeB c7Reg "B7" "C7" = false ∧ edgeB c7Reg "C7" "A7" = true ∧
    plan c7Reg c7World = Except.ok ["B7", "C7", "A7"] := by
  exact ⟨by decide, by decide, by decide, by decide, by decide, by decide, by decide, by decide⟩

/-! Staleness pass: membership lemmas. -/

theorem staleFoldAux_cons (r : Registry) (w : World) (acc : List String) (x : String)
    (t : List String) :
    staleFoldAux r w acc (x :: t) = staleFoldAux r w (staleStep r w acc x) t := rfl

theorem staleFoldAux_append (r : Registry) (w : World) (acc l1 l2 : List String) :
    staleFoldAux r w acc (l1 ++ l2) = staleFoldAux r w (staleFoldAux r w acc l1) l2 := by
  unfold staleFoldAux
  exact List.foldl_append _ _ _ _

theorem staleStep_sub {r : Registry} {w : World} {acc : List String} {n : String} :
    ∀ m ∈ staleStep r w acc n, m ∈ acc ∨ m = n := by
  intro m hm
  unfold staleStep at hm
  cases hl : lookupStage r n with
  | none => rw [hl] at hm; exact Or.inl hm
  | some s =>
    rw [hl] at hm
    have hm' : m ∈ (if (directlyStale w s ||
        (upstreamNames r s).any fun a => acc.contains a) = true then n :: acc else acc) := hm
    by_cases hc : (directlyStale w s || (upstreamNames r s).any fun a => acc.contains a) = true
    · rw [if_pos hc] at hm'
      rcases List.mem_cons.1 hm' with h1 | h1
      · exact Or.inr h1
      · exact Or.inl h1
    · rw [if_neg hc] at hm'
      exact Or.inl hm'

theorem staleStep_mono {r : Registry} {w : World} {acc : List String} {n : String} :
    ∀ m ∈ acc, m ∈ staleStep r w acc n := by
  intro m hm
  unfold staleStep
  cases lookupStage r n with
  | none => exact hm
  | some s =>
    show m ∈ (if (directlyStale w s ||
        (upstreamNames r s).any fun a => acc.contains a) = true then n :: acc else acc)
    by_cases hc : (directlyStale w s || (upstreamNames r s).any fun a => acc.contains a) = true
    · rw [if_pos hc]
      exact List.Mem.tail _ hm
    · rw [if_neg hc]
      exact hm

theorem staleFoldAux_mono {r : Registry} {w : World} :
    ∀ (l acc : List String), ∀ m ∈ acc, m ∈ staleFoldAux r w acc l := by
  intro l
  induction l with
  | nil => intro acc m hm; exact hm
  | cons x t ih =>
    intro acc m hm
    rw [staleFoldAux_cons]
    exact ih _ m (staleStep_mono m hm)

theorem staleFoldAux_from {r : Registry} {w : World} :
    ∀ (l acc : List String), ∀ m ∈ staleFoldAux r w acc l, m ∈ acc ∨ m ∈ l := by
  intro l
  induction l with
  | nil => intro acc m hm; exact Or.inl hm
  | cons x t ih =>
    intro acc m hm
    rw [staleFoldAux_cons] at hm
    rcases ih _ m hm with h1 | h1
    · rcases staleStep_sub m h1 with h2 | h2
      · exact Or.inl h2
      · exact Or.inr (h2 ▸ List.Mem.head t)
    · exact Or.inr (List.Mem.tail x h1)

theorem staleFold_subset_order {r : Registry} {w : World} {order : List String} {m : String}
    (hm : m ∈ staleFold r w order) : m ∈ order := by
  rcases staleFoldAux_from order [] m hm with h1 | h1
  · exact absurd h1 (List.not_mem_nil m)
  · exact h1

theorem staleStep_self_mem {r : Registry} {w : World} {acc : List String} {n : String} {s : Stage}
    (hl : lookupStage r n = some s)
    (hcond : directlyStale w s = true ∨ ∃ a ∈ upstreamNames r s, a ∈ acc) :
    n ∈ staleStep r w acc n := by
  unfold staleStep
  rw [hl]
  show n ∈ (if (directlyStale w s ||
      (upstreamNames r s).any fun a => acc.contains a) = true then n :: acc else acc)
  have hc : (directlyStale w s || (upstreamNames r s).any fun a => acc.contains a) = true := by
    rcases hcond with h1 | ⟨a, ha, hacc⟩
    · rw [h1]
      rfl
    · rw [Bool.or_eq_true]
      exact Or.inr (List.any_eq_true.2 ⟨a, ha, contains_iff.2 hacc⟩)
  rw [if_pos hc]
  exact List.Mem.head _

/-- Introduction: a directly stale stage is recorded stale at its own
position of the order. -/
theorem stale_of_direct {r : Registry} {w : World} {l1 l2 : List String} {m : String} {s : Stage}
    (hl : lookupStage r m = some s) (hd : directlyStale w s = true) :
    m ∈ staleFold r w (l1 ++ m :: l2) := by
  unfold staleFold
  rw [staleFoldAux_append, staleFoldAux_cons]
  exact staleFoldAux_mono l2 _ m (staleStep_self_mem hl (Or.inl hd))

/-- Introduction: staleness propagates from a stale upstream producer
sitting earlier in the order. -/
theorem stale_propagate {r : Registry} {w : World} {l1 l2 : List String} {m a : String}
    {s : Stage} (hnd : (l1 ++ m :: l2).Nodup)
    (hl : lookupStage r m = some s) (ha : a ∈ upstreamNames r s) (hal : a ∈ l1)
    (hstale : a ∈ staleFold r w (l1 ++ m :: l2)) : m ∈ staleFold r w (l1 ++ m :: l2) := by
  have hmnl1 : m ∉ l1 := (nodup_split hnd).1
  have hdisj : a ∉ m :: l2 := by
    intro hc
    rw [List.nodup_append] at hnd
    exact hnd.2.2 hal hc
  unfold staleFold at hstale ⊢
  rw [staleFoldAux_append, staleFoldAux_cons] at hstale ⊢
  have haA : a ∈ staleFoldAux r w [] l1 := by
    rcases staleFoldAux_from l2 _ a hstale with h1 | h1
    · rcases staleStep_sub a h1 with h2 | h2
      · exact h2
      · exact absurd (h2 ▸ List.Mem.head l2) hdisj
    · exact absurd (List.Mem.tail m h1) hdisj
  exact staleFoldAux_mono l2 _ m (staleStep_self_mem hl (Or.inr ⟨a, ha, haA⟩))

/-- Elimination: a stage of the order that is not recorded stale is not
directly stale. -/
theorem fresh_of_not_stale {r : Registry} {w : World} {order : List String} {m : String}
    (hmo : m ∈ order) (hnot : m ∉ staleFold r w order) :
    ∀ s, lookupStage r m = some s → directlyStale w s = false := by
  intro s hl
  rcases List.append_of_mem hmo with ⟨l1, l2, hsplit⟩
  cases hd : directlyStale w s with
  | false => rfl
  | true => exact absurd (hsplit ▸ stale_of_direct hl hd) hnot

/-- Elimination: a stale stage of a nodup order is directly stale or has
a stale upstream producer recorded by the prefix-pass before it. -/
theorem stale_elim {r : Registry} {w : World} {l1 l2 : List String} {m : String}
    (hnd : (l1 ++ m :: l2).Nodup)
    (hm : m ∈ staleFold r w (l1 ++ m :: l2)) :
    ∃ s, lookupStage r m = some s ∧
      (directlyStale w s = true ∨
        ∃ a ∈ upstreamNames r s, a ∈ staleFoldAux r w [] l1 ∧ a ∈ l1) := by
  have hmnl1 : m ∉ l1 := (nodup_split hnd).1
  have hmnl2 : m ∉ l2 := (nodup_split hnd).2
  unfold staleFold at hm
  rw [staleFoldAux_append, staleFoldAux_cons] at hm
  have hstep : m ∈ staleStep r w (staleFoldAux r w [] l1) m := by
    rcases staleFoldAux_from l2 _ m hm with h1 | h1
    · exact h1
    · exact absurd h1 hmnl2
  unfold staleStep at hstep
  cases hl : lookupStage r m with
  | none =>
    rw [hl] at hstep
    rcases staleFoldAux_from l1 [] m hstep with h1 | h1
    · exact absurd h1 (List.not_mem_nil m)
    · exact absurd h1 hmnl1
  | some s =>
    rw [hl] at hstep
    have hstep' : m ∈ (if (directlyStale w s ||
        (upstreamNames r s).any fun a => (staleFoldAux r w [] l1).contains a) = true
        then m :: staleFoldAux r w [] l1 else staleFoldAux r w [] l1) := hstep
    refine ⟨s, rfl, ?_⟩
    by_cases hc : (directlyStale w s ||
        (upstreamNames r s).any fun a => (staleFoldAux r w [] l1).contains a) = true
    · rw [Bool.or_eq_true] at hc
      rcases hc with h1 | h1
      · exact Or.inl h1
      · rcases List.any_eq_true.1 h1 with ⟨a, ha, hac⟩
        have haA := contains_iff.1 hac
        have hal1 : a ∈ l1 := by
          rcases staleFoldAux_from l1 [] a haA with h2 | h2
          · exact absurd h2 (List.not_mem_nil a)
          · exact h2
        exact Or.inr ⟨a, ha, haA, hal1⟩
    · rw [if_neg hc] at hstep'
      rcases staleFoldAux_from l1 [] m hstep' with h1 | h1
      · exact absurd h1 (List.not_mem_nil m)
      · exact absurd h1 hmnl1

/-- The stale-prefix pass is below the full pass. -/
theorem staleFoldAux_prefix_le {r : Registry} {w : World} {l1 l2 : List String} {a : String}
    (ha : a ∈ staleFoldAux r w [] l1) : a ∈ staleFold r w (l1 ++ l2) := by
  unfold staleFold
  rw [staleFoldAux_append]
  exact staleFoldAux_mono l2 _ a ha

/-! Plan extraction. -/

theorem plan_eq {r : Registry} {w : World} {order : List String}
    (ht : topoSort r = Except.ok order) :
    plan r w = Except.ok (order.filter (fun n => (staleFold r w order).contains n)) := by
  unfold plan
  rw [ht]

theorem mem_plan_iff {r : Registry} {w : World} {order n : _}
    (ht : topoSort r = Except.ok order) :
    (n ∈ order.filter (fun n => (staleFold r w order).contains n) ↔
      n ∈ order ∧ n ∈ staleFold r w order) := by
  rw [List.mem_filter]
  constructor
  · rintro ⟨h1, h2⟩
    exact ⟨h1, contains_iff.1 h2⟩
  · rintro ⟨h1, h2⟩
    exact ⟨h1, contains_iff.2 h2⟩

theorem pos_filter_lt {l1 l2 : List String} {a b : String} {q : String → Bool}
    (hnd : (l1 ++ b :: l2).Nodup) (ha : a ∈ l1) (hqa : q a = true) (hqb : q b = true) :
    pos ((l1 ++ b :: l2).filter q) a < pos ((l1 ++ b :: l2).filter q) b := by
  rw [List.filter_append, List.filter_cons, if_pos hqb]
  have ha' : a ∈ l1.filter q := List.mem_filter.2 ⟨ha, hqa⟩
  have hb' : b ∉ l1.filter q := fun hm => (nodup_split hnd).1 (List.mem_of_mem_filter hm)
  exact pos_lt_of_split ha' hb'

/-! C3: forward propagation. -/

/-- C3: whenever an output path of stage `A` equals a dependency path of
stage `B` and one of `A`'s declared inputs differs from its recorded
fingerprint, both `A` and `B` appear in the plan and `A` is ordered
before `B`. -/
theorem forward_propagation (r : Registry) (w : World) (p : List String)
    (hload : loadOk r = true) (hplan : plan r w = Except.ok p)
    (A B : Stage) (hA : A ∈ r) (hB : B ∈ r)
    (d : FileRef) (hd : d ∈ B.deps) (hprod : producesPath A d.path = true)
    (da : FileRef) (hda : da ∈ A.deps) (hch : refChanged w.fs da = true) :
    A.name ∈ p ∧ B.name ∈ p ∧ pos p A.name < pos p B.name := by
  have hnd : (stageNames r).Nodup := loadOk_nodup hload
  cases ht : topoSort r with
  | error e =>
    rw [plan, ht] at hplan
    cases hplan
  | ok order =>
    rw [plan_eq ht] at hplan
    have hpeq : p = order.filter (fun n => (staleFold r w order).contains n) :=
      (Except.ok.inj hplan).symm
    have hond : order.Nodup := topoSort_nodup ht
    have hlA : lookupStage r A.name = some A := lookup_of_mem hnd hA
    have hlB : lookupStage r B.name = some B := lookup_of_mem hnd hB
    have hAo : A.name ∈ order := (topoSort_mem ht _).2 (List.mem_map.2 ⟨A, hA, rfl⟩)
    have hBo : B.name ∈ order := (topoSort_mem ht _).2 (List.mem_map.2 ⟨B, hB, rfl⟩)
    have hAdirect : directlyStale w A = true := by
      unfold directlyStale
      rw [List.any_eq_true.2 ⟨da, hda, hch⟩]
      rfl
    have hAstale : A.name ∈ staleFold r w order := by
      rcases List.append_of_mem hAo with ⟨l1, l2, hs⟩
      rw [hs]
      exact stale_of_direct hlA hAdirect
    have hup : A.name ∈ upstreamNames r B :=
      mem_upstream.2 ⟨d, hd, mem_producersOf.2 ⟨A, hA, hprod, rfl⟩⟩
    rcases List.append_of_mem hBo with ⟨m1, m2, hsB⟩
    have hAm1 : A.name ∈ m1 := topoSort_good hnd ht m1 B.name m2 hsB B hlB A.name hup
    have hBstale : B.name ∈ staleFold r w order := by
      rw [hsB] at hAstale ⊢
      exact stale_propagate (hsB ▸ hond) hlB hup hAm1 hAstale
    have hqA : (staleFold r w order).contains A.name = true := contains_iff.2 hAstale
    have hqB : (staleFold r w order).contains B.name = true := contains_iff.2 hBstale
    refine ⟨?_, ?_, ?_⟩
    · rw [hpeq]
      exact List.mem_filter.2 ⟨hAo, hqA⟩
    · rw [hpeq]
      exact List.mem_filter.2 ⟨hBo, hqB⟩
    · rw [hpeq, hsB]
      have hqA' : (staleFold r w order).contains A.name = true := hqA
      rw [hsB] at hqA' hqB
      exact pos_filter_lt (hsB ▸ hond) hAm1 hqA' hqB

/-- C3 (witness): in the concrete chain, changing `A3`'s raw input plans
both stages with `A3` before `B3`. -/
theorem forward_propagation_witness :
    "A3" ∈ ["A3", "B3"] ∧ "B3" ∈ ["A3", "B3"] ∧
    pos ["A3", "B3"] "A3" < pos ["A3", "B3"] "B3" := by
  have h := forward_propagation fReg3 fWorld3 ["A3", "B3"] (by decide) (by decide)
    fStageA3 fStageB3 (List.Mem.head _) (List.Mem.tail _ (List.Mem.head _))
    ⟨"mid.txt", "mh", 1⟩ (List.Mem.head _) (by decide)
    ⟨"raw.txt", "oldhash", 1⟩ (List.Mem.head _) (by decide)
  exact h

/-! C6: contract violation. -/

/-- C6: when a planned stage's command exits with status zero but a
declared output is missing afterwards, the stage fails with a
ContractViolation — a reason distinct from StageExecutionError — and the
runner halts exactly as a nonzero exit does: nothing later in the plan
is attempted and the registry is left untouched by the failing stage. -/
theorem contract_violation_halts
    (ex ex2 : Exec) (r : Registry) (w : World) (n : String) (rest done : List String)
    (s : Stage) (hlook : lookupStage r n = some s)
    (fs' : FS) (hex : ex (w.cmds s.name) w.fs = some fs')
    (o : FileRef) (ho : o ∈ s.outs) (hmiss : fs' o.path = none)
    (hex2 : ex2 (w.cmds s.name) w.fs = none) :
    runStage ex w s = ({ w with fs := fs' }, Except.error EngineError.contractViolation) ∧
    runPlanAux ex (n :: rest) r w done =
      ⟨r, { w with fs := fs' }, done.reverse, some (n, EngineError.contractViolation)⟩ ∧
    runPlanAux ex2 (n :: rest) r w done =
      ⟨r, w, done.reverse, some (n, EngineError.stageExecutionError)⟩ ∧
    EngineError.contractViolation ≠ EngineError.stageExecutionError := by
  have hall : (s.outs.all (fun o => (fs' o.path).isSome)) = false := by
    cases hv : s.outs.all (fun o => (fs' o.path).isSome) with
    | false => rfl
    | true =>
      have := List.all_eq_true.1 hv o ho
      rw [hmiss] at this
      simp at this
  have h1 : runStage ex w s = ({ w with fs := fs' }, Except.error EngineError.contractViolation) := by
    unfold runStage
    rw [hex]
    simp [hall]
  have h2 : runStage ex2 w s = (w, Except.error EngineError.stageExecutionError) := by
    unfold runStage
    rw [hex2]
  refine ⟨h1, ?_, ?_, by decide⟩
  · simp only [runPlanAux, hlook, h1]
  · simp only [runPlanAux, hlook, h2]

/-- C6 (witness): the concrete stage `S6` whose command succeeds but
writes nothing is failed with ContractViolation and halts the runner. -/
theorem contract_violation_halts_witness :
    runStage c6Exec c6World c6S =
      ({ c6World with fs := c6World.fs }, Except.error EngineError.contractViolation) ∧
    runPlanAux c6Exec ["S6"] c6Reg c6World [] =
      ⟨c6Reg, { c6World with fs := c6World.fs }, [], some ("S6", EngineError.contractViolation)⟩ ∧
    runPlanAux c6Exec2 ["S6"] c6Reg c6World [] =
      ⟨c6Reg, c6World, [], some ("S6", EngineError.stageExecutionError)⟩ ∧
    EngineError.contractViolation ≠ EngineError.stageExecutionError :=
  contract_violation_halts c6Exec c6Exec2 c6Reg c6World "S6" [] [] c6S rfl
    c6World.fs rfl ⟨"o6.txt", "h", 1⟩ (List.Mem.head _) rfl rfl

/-! Shape congruence: the planner and the graph only read the shape
(names, dependency paths, output paths) of the registry. -/

theorem map_congr_mem {α β : Type} {l : List α} {f g : α → β}
    (h : ∀ a ∈ l, f a = g a) : l.map f = l.map g := by
  induction l with
  | nil => rfl
  | cons a t ih =>
    simp only [List.map_cons]
    rw [h a (List.Mem.head t), ih (fun b hb => h b (List.Mem.tail a hb))]

theorem shape_name {s t : Stage} (h : stageShape s = stageShape t) : s.name = t.name :=
  congrArg Prod.fst h

theorem shape_depPaths {s t : Stage} (h : stageShape s = stageShape t) :
    s.deps.map (fun d => d.path) = t.deps.map (fun d => d.path) :=
  congrArg (fun x => x.2.1) h

theorem shape_outPaths {s t : Stage} (h : stageShape s = stageShape t) :
    outPaths s = outPaths t :=
  congrArg (fun x => x.2.2) h

theorem regShape_cases {a : Stage} {t : Registry} {r2 : Registry}
    (h : regShape (a :: t) = regShape r2) :
    ∃ b u, r2 = b :: u ∧ stageShape a = stageShape b ∧ regShape t = regShape u := by
  cases r2 with
  | nil => simp [regShape] at h
  | cons b u =>
    simp only [regShape, List.map_cons, List.cons.injEq] at h
    exact ⟨b, u, rfl, h.1, h.2⟩

theorem stageNames_eq_shape (r : Registry) : stageNames r = (regShape r).map Prod.fst := by
  unfold stageNames regShape
  rw [List.map_map]
  rfl

theorem stageNames_of_shape {r1 r2 : Registry} (h : regShape r1 = regShape r2) :
    stageNames r1 = stageNames r2 := by
  rw [stageNames_eq_shape, stageNames_eq_shape, h]

theorem producersOf_shape {r1 r2 : Registry} (h : regShape r1 = regShape r2) (p : String) :
    producersOf r1 p = producersOf r2 p := by
  induction r1 generalizing r2 with
  | nil =>
    cases r2 with
    | nil => rfl
    | cons b u => simp [regShape] at h
  | cons a t ih =>
    rcases regShape_cases h with ⟨b, u, rfl, hab, htu⟩
    have hname : a.name = b.name := shape_name hab
    have houts : outPaths a = outPaths b := shape_outPaths hab
    have hpp : producesPath a p = producesPath b p := by
      unfold producesPath
      rw [houts]
    unfold producersOf at ih ⊢
    simp only [List.filter_cons]
    cases hc : producesPath b p with
    | true =>
      rw [hpp, hc, if_pos rfl, if_pos rfl]
      simp only [List.map_cons]
      rw [hname, ih htu]
    | false =>
      rw [hpp, hc, if_neg (by simp), if_neg (by simp)]
      exact ih htu

theorem upstreamOfPaths_shape {r1 r2 : Registry} (h : regShape r1 = regShape r2)
    (ps : List String) : upstreamOfPaths r1 ps = upstreamOfPaths r2 ps := by
  induction ps with
  | nil => rfl
  | cons p t ih =>
    unfold upstreamOfPaths at ih ⊢
    simp only [List.foldr_cons]
    rw [producersOf_shape h p]
    exact congrArg _ ih

theorem upstreamNames_shape {r1 r2 : Registry} {s1 s2 : Stage}
    (h : regShape r1 = regShape r2) (hs : stageShape s1 = stageShape s2) :
    upstreamNames r1 s1 = upstreamNames r2 s2 := by
  unfold upstreamNames
  rw [shape_depPaths hs, upstreamOfPaths_shape h]

theorem ready_shape {r1 r2 : Registry} {s1 s2 : Stage} (done : List String)
    (h : regShape r1 = regShape r2) (hs : stageShape s1 = stageShape s2) :
    ready r1 done s1 = ready r2 done s2 := by
  unfold ready
  rw [upstreamNames_shape h hs]

theorem find_ready_shape {r1 r2 : Registry} (h : regShape r1 = regShape r2)
    (done : List String) :
    ∀ (rem1 rem2 : Registry), regShape rem1 = regShape rem2 →
      (rem1.find? (ready r1 done) = none ∧ rem2.find? (ready r2 done) = none) ∨
      (∃ s1 s2, rem1.find? (ready r1 done) = some s1 ∧ rem2.find? (ready r2 done) = some s2 ∧
        stageShape s1 = stageShape s2) := by
  intro rem1
  induction rem1 with
  | nil =>
    intro rem2 hr
    cases rem2 with
    | nil => exact Or.inl ⟨rfl, rfl⟩
    | cons b u => simp [regShape] at hr
  | cons a t ih =>
    intro rem2 hr
    rcases regShape_cases hr with ⟨b, u, rfl, hab, htu⟩
    cases hrd : ready r2 done b with
    | true =>
      have hrd1 : ready r1 done a = true := by
        rw [ready_shape done h hab, hrd]
      exact Or.inr ⟨a, b, List.find?_cons_of_pos _ hrd1, List.find?_cons_of_pos _ hrd, hab⟩
    | false =>
      have hrd1 : ready r1 done a = false := by
        rw [ready_shape done h hab, hrd]
      rw [List.find?_cons_of_neg _ (by simp [hrd1]), List.find?_cons_of_neg _ (by simp [hrd])]
      exact ih u htu

theorem filter_name_shape {x : String} :
    ∀ (rem1 rem2 : Registry), regShape rem1 = regShape rem2 →
      regShape (rem1.filter (fun t => t.name != x)) =
        regShape (rem2.filter (fun t => t.name != x)) := by
  intro rem1
  induction rem1 with
  | nil =>
    intro rem2 hr
    cases rem2 with
    | nil => rfl
    | cons b u => simp [regShape] at hr
  | cons a t ih =>
    intro rem2 hr
    rcases regShape_cases hr with ⟨b, u, rfl, hab, htu⟩
    have hname : a.name = b.name := shape_name hab
    have hres := ih u htu
    simp only [List.filter_cons, hname]
    cases hc : (b.name != x) with
    | true =>
      rw [if_pos (by simp), if_pos (by simp)]
      simp only [regShape, List.map_cons] at hres ⊢
      rw [hab, hres]
    | false =>
      rw [if_neg (by simp), if_neg (by simp)]
      exact hres

theorem topoAux_shape {r1 r2 : Registry} (h : regShape r1 = regShape r2) :
    ∀ fuel (rem1 rem2 : Registry) (done : List String), regShape rem1 = regShape rem2 →
      topoAux r1 fuel done rem1 = topoAux r2 fuel done rem2 := by
  intro fuel
  induction fuel with
  | zero =>
    intro rem1 rem2 done hr
    cases rem1 with
    | nil =>
      cases rem2 with
      | nil => rfl
      | cons b u => simp [regShape] at hr
    | cons a t =>
      cases rem2 with
      | nil => simp [regShape] at hr
      | cons b u => rfl
  | succ k ih =>
    intro rem1 rem2 done hr
    cases rem1 with
    | nil =>
      cases rem2 with
      | nil => rfl
      | cons b u => simp [regShape] at hr
    | cons a t =>
      rcases regShape_cases hr with ⟨b, u, rfl, hab, htu⟩
      simp only [topoAux]
      rcases find_ready_shape h done (a :: t) (b :: u) hr with ⟨h1, h2⟩ | ⟨s1, s2, h1, h2, hs⟩
      · rw [h1, h2]
      · rw [h1, h2]
        show topoAux r1 k (s1.name :: done) ((a :: t).filter (fun t => t.name != s1.name)) =
          topoAux r2 k (s2.name :: done) ((b :: u).filter (fun t => t.name != s2.name))
        rw [shape_name hs]
        exact ih _ _ _ (filter_name_shape _ _ hr)

theorem topoSort_shape {r1 r2 : Registry} (h : regShape r1 = regShape r2) :
    topoSort r1 = topoSort r2 := by
  unfold topoSort
  have hlen : r1.length = r2.length := by
    have := congrArg List.length h
    simpa [regShape] using this
  rw [hlen]
  exact topoAux_shape h r2.length r1 r2 [] h

theorem find_name_cons_pos {t : Registry} {a : Stage} {n : String}
    (h : (a.name == n) = true) : lookupStage (a :: t) n = some a := by
  unfold lookupStage
  exact List.find?_cons_of_pos _ (show (fun s : Stage => s.name == n) a = true from h)

theorem find_name_cons_neg {t : Registry} {a : Stage} {n : String}
    (h : (a.name == n) = false) : lookupStage (a :: t) n = lookupStage t n := by
  unfold lookupStage
  exact List.find?_cons_of_neg _ (show ¬(fun s : Stage => s.name == n) a = true by simp [h])

theorem lookup_shape {r1 r2 : Registry} (h : regShape r1 = regShape r2) (n : String) :
    (lookupStage r1 n = none ∧ lookupStage r2 n = none) ∨
    (∃ s1 s2, lookupStage r1 n = some s1 ∧ lookupStage r2 n = some s2 ∧
      stageShape s1 = stageShape s2) := by
  induction r1 generalizing r2 with
  | nil =>
    cases r2 with
    | nil => exact Or.inl ⟨rfl, rfl⟩
    | cons b u => simp [regShape] at h
  | cons a t ih =>
    rcases regShape_cases h with ⟨b, u, rfl, hab, htu⟩
    have hname : a.name = b.name := shape_name hab
    cases hc : (b.name == n) with
    | true =>
      have hc1 : (a.name == n) = true := by rw [hname]; exact hc
      exact Or.inr ⟨a, b, find_name_cons_pos hc1, find_name_cons_pos hc, hab⟩
    | false =>
      have hc1 : (a.name == n) = false := by rw [hname]; exact hc
      rw [find_name_cons_neg hc1, find_name_cons_neg hc]
      exact ih htu

/-! Refresh and run-stage characterization. -/

theorem refreshRef_path (fs : FS) (f : FileRef) : (refreshRef fs f).path = f.path := by
  unfold refreshRef
  cases fs f.path <;> rfl

theorem map_path_refresh (fs' : FS) (l : List FileRef) :
    (l.map (refreshRef fs')).map (fun d => d.path) = l.map (fun d => d.path) := by
  induction l with
  | nil => rfl
  | cons a t ih =>
    simp only [List.map_cons]
    rw [refreshRef_path, ih]

theorem stageShape_refresh (w : World) (fs' : FS) (s : Stage) :
    stageShape (refreshStage w fs' s) = stageShape s := by
  unfold stageShape refreshStage outPaths
  simp only []
  rw [map_path_refresh, map_path_refresh]

theorem refreshStage_name (w : World) (fs' : FS) (s : Stage) :
    (refreshStage w fs' s).name = s.name := rfl

theorem runStage_ok {ex : Exec} {w : World} {s : Stage} {w' : World} {s' : Stage}
    (h : runStage ex w s = (w', Except.ok s')) :
    ∃ fs', ex (w.cmds s.name) w.fs = some fs' ∧
      w' = { w with fs := fs' } ∧
      s' = refreshStage { w with fs := fs' } fs' s ∧
      s.outs.all (fun o => (fs' o.path).isSome) = true := by
  cases hex : ex (w.cmds s.name) w.fs with
  | none =>
    simp only [runStage, hex] at h
    injection h with h2a h2b
    exact absurd h2b (by simp)
  | some fs' =>
    simp only [runStage, hex] at h
    by_cases hall : s.outs.all (fun o => (fs' o.path).isSome) = true
    · rw [if_pos hall] at h
      injection h with h2a h2b
      injection h2b with h2c
      exact ⟨fs', rfl, h2a.symm, h2c.symm, hall⟩
    · rw [if_neg hall] at h
      injection h with h2a h2b
      exact absurd h2b (by simp)

theorem runStage_err {ex : Exec} {w : World} {s : Stage} {w' : World} {e : EngineError}
    (h : runStage ex w s = (w', Except.error e)) :
    (w' = w ∧ ex (w.cmds s.name) w.fs = none ∧ e = EngineError.stageExecutionError) ∨
    (∃ fs', ex (w.cmds s.name) w.fs = some fs' ∧ w' = { w with fs := fs' } ∧
      e = EngineError.contractViolation ∧
      s.outs.all (fun o => (fs' o.path).isSome) = false) := by
  cases hex : ex (w.cmds s.name) w.fs with
  | none =>
    simp only [runStage, hex] at h
    injection h with h2a h2b
    injection h2b with h2c
    exact Or.inl ⟨h2a.symm, rfl, h2c.symm⟩
  | some fs' =>
    simp only [runStage, hex] at h
    by_cases hall : s.outs.all (fun o => (fs' o.path).isSome) = true
    · rw [if_pos hall] at h
      injection h with h2a h2b
      exact absurd h2b (by simp)
    · rw [if_neg hall] at h
      injection h with h2a h2b
      injection h2b with h2c
      refine Or.inr ⟨fs', rfl, h2a.symm, h2c.symm, ?_⟩
      cases hv : s.outs.all (fun o => (fs' o.path).isSome) with
      | false => rfl
      | true => exact absurd hv hall

/-! Registry update lemmas. -/

theorem lookupStage_update_ne {r : Registry} {s' : Stage} {m : String}
    (hne : m ≠ s'.name) : lookupStage (updateReg r s') m = lookupStage r m := by
  induction r with
  | nil => rfl
  | cons a t ih =>
    unfold updateReg at ih ⊢
    simp only [List.map_cons]
    cases hc : (a.name == s'.name) with
    | true =>
      rw [if_pos rfl]
      have ha : a.name = s'.name := by simpa using hc
      have h1 : (s'.name == m) = false := by
        rw [beq_eq_false_iff_ne]
        exact fun he => hne he.symm
      have h2 : (a.name == m) = false := by
        rw [beq_eq_false_iff_ne, ha]
        exact fun he => hne he.symm
      rw [find_name_cons_neg h1, find_name_cons_neg h2]
      exact ih
    | false =>
      rw [if_neg (by simp)]
      cases hm : (a.name == m) with
      | true =>
        rw [find_name_cons_pos hm, find_name_cons_pos hm]
      | false =>
        rw [find_name_cons_neg hm, find_name_cons_neg hm]
        exact ih

theorem lookupStage_update_self {r : Registry} {s' : Stage}
    (hmem : s'.name ∈ stageNames r) : lookupStage (updateReg r s') s'.name = some s' := by
  induction r with
  | nil => exact absurd hmem (by simp [stageNames])
  | cons a t ih =>
    unfold updateReg at ih ⊢
    simp only [List.map_cons]
    cases hc : (a.name == s'.name) with
    | true =>
      rw [if_pos rfl]
      exact find_name_cons_pos (by simp)
    | false =>
      rw [if_neg (by simp)]
      rw [find_name_cons_neg hc]
      refine ih ?_
      have hsplit : s'.name = a.name ∨ s'.name ∈ stageNames t := by
        simpa [stageNames] using hmem
      rcases hsplit with h1 | h1
      · exact absurd (by simp [h1] : (a.name == s'.name) = true) (by simp [hc])
      · exact h1

theorem regShape_update {r : Registry} {s s' : Stage}
    (hnd : (stageNames r).Nodup) (hl : lookupStage r s'.name = some s)
    (hshape : stageShape s' = stageShape s) :
    regShape (updateReg r s') = regShape r := by
  unfold updateReg regShape
  rw [List.map_map]
  refine map_congr_mem ?_
  intro t ht
  show stageShape (if t.name == s'.name then s' else t) = stageShape t
  cases hc : (t.name == s'.name) with
  | true =>
    rw [if_pos rfl]
    have htn : t.name = s'.name := by simpa using hc
    have hteq : t = s :=
      names_nodup_unique hnd t ht s (lookup_mem hl) (htn.trans (lookup_name hl).symm)
    rw [hshape, hteq]
  | false => rw [if_neg (by simp)]

/-! Freshness: decomposition and preservation. -/

theorem bool_not_true {b : Bool} (h : ¬b = true) : b = false := by
  cases b with
  | false => rfl
  | true => exact absurd rfl h

theorem any_false_iff {α : Type} {l : List α} {p : α → Bool} :
    l.any p = false ↔ ∀ x ∈ l, p x = false := by
  constructor
  · intro h x hx
    cases hp : p x with
    | false => rfl
    | true =>
      have := List.any_eq_true.2 ⟨x, hx, hp⟩
      rw [h] at this
      exact absurd this (by simp)
  · intro h
    cases ha : l.any p with
    | false => rfl
    | true =>
      rcases List.any_eq_true.1 ha with ⟨x, hx, hp⟩
      rw [h x hx] at hp
      exact absurd hp (by simp)

theorem directlyStale_false {w : World} {s : Stage} :
    directlyStale w s = false ↔
      (∀ d ∈ s.deps, refChanged w.fs d = false) ∧
      (∀ p ∈ s.params, paramChanged w p = false) ∧
      (∀ o ∈ s.outs, refChanged w.fs o = false) ∧
      w.cmds s.name = s.cmd := by
  unfold directlyStale
  rw [Bool.or_eq_false_iff, Bool.or_eq_false_iff, Bool.or_eq_false_iff,
    any_false_iff, any_false_iff, any_false_iff, bne_eq_false_iff_eq]
  tauto

theorem refChanged_false_iff {fs : FS} {f : FileRef} :
    refChanged fs f = false ↔ fingerprint fs f.path = Except.ok f.hash := by
  unfold refChanged
  cases hf : fingerprint fs f.path with
  | error e => simp
  | ok h =>
    simp only [bne_eq_false_iff_eq]
    constructor
    · intro he
      rw [he]
    · intro he
      exact Except.ok.inj he

theorem fingerprint_ok_inv {fs : FS} {p h : String}
    (hf : fingerprint fs p = Except.ok h) :
    ∃ f, fs p = some f ∧ f.readable = true ∧ h = digestStr f.content := by
  cases hp : fs p with
  | none =>
    simp only [fingerprint, hp] at hf
    exact absurd hf (by simp)
  | some f =>
    simp only [fingerprint, hp] at hf
    by_cases hr : f.readable = true
    · rw [if_pos hr] at hf
      exact ⟨f, rfl, hr, (Except.ok.inj hf).symm⟩
    · rw [if_neg hr] at hf
      exact absurd hf (by simp)

theorem fingerprint_of_file {fs : FS} {p : String} {f : File}
    (hp : fs p = some f) (hr : f.readable = true) :
    fingerprint fs p = Except.ok (digestStr f.content) := by
  simp only [fingerprint, hp, hr, if_true]

theorem refreshRef_fresh {fs : FS} {f : FileRef} {fl : File}
    (hp : fs f.path = some fl) (hr : fl.readable = true) :
    refChanged fs (refreshRef fs f) = false := by
  rw [refChanged_false_iff, refreshRef_path]
  have hhash : (refreshRef fs f).hash = digestStr fl.content := by
    simp only [refreshRef, hp]
  rw [hhash]
  exact fingerprint_of_file hp hr

theorem refreshParam_fresh {w w1 : World} {p : ParamRef} {v : String}
    (hv : w.params p.source p.key = some v) (hw : w1.params = w.params) :
    paramChanged w1 (refreshParamRef w p) = false := by
  have hsrc : (refreshParamRef w p).source = p.source := by
    simp only [refreshParamRef, hv]
  have hkey : (refreshParamRef w p).key = p.key := by
    simp only [refreshParamRef, hv]
  have hval : (refreshParamRef w p).value = v := by
    simp only [refreshParamRef, hv]
  unfold paramChanged
  rw [hsrc, hkey, hw, hv, hval]
  simp

theorem refChanged_congr {fs1 fs2 : FS} {f : FileRef} (h : fs2 f.path = fs1 f.path) :
    refChanged fs2 f = refChanged fs1 f := by
  unfold refChanged fingerprint
  rw [h]

theorem fresh_transfer {w1 w2 : World} {t : Stage}
    (hp : w2.params = w1.params) (hcm : w2.cmds = w1.cmds)
    (hdeps : ∀ d ∈ t.deps, w2.fs d.path = w1.fs d.path)
    (houts : ∀ o ∈ t.outs, w2.fs o.path = w1.fs o.path)
    (hfresh : directlyStale w1 t = false) : directlyStale w2 t = false := by
  rw [directlyStale_false] at hfresh ⊢
  refine ⟨?_, ?_, ?_, ?_⟩
  · intro d hd
    rw [refChanged_congr (hdeps d hd)]
    exact hfresh.1 d hd
  · intro p hp'
    have hpc : paramChanged w2 p = paramChanged w1 p := by
      unfold paramChanged
      rw [hp]
    rw [hpc]
    exact hfresh.2.1 p hp'
  · intro o ho
    rw [refChanged_congr (houts o ho)]
    exact hfresh.2.2.1 o ho
  · rw [hcm]
    exact hfresh.2.2.2

theorem refresh_fresh {w : World} {fs' : FS} {s : Stage}
    (hdeps : ∀ d ∈ s.deps, ∃ f, fs' d.path = some f ∧ f.readable = true)
    (houts : ∀ o ∈ s.outs, ∃ f, fs' o.path = some f ∧ f.readable = true)
    (hpar : ∀ p ∈ s.params, ∃ v, w.params p.source p.key = some v) :
    directlyStale { w with fs := fs' }
      (refreshStage { w with fs := fs' } fs' s) = false := by
  rw [directlyStale_false]
  refine ⟨?_, ?_, ?_, rfl⟩
  · intro d hd
    rcases List.mem_map.1 hd with ⟨d0, hd0, hd0e⟩
    rcases hdeps d0 hd0 with ⟨f, hf, hr⟩
    exact hd0e ▸ refreshRef_fresh hf hr
  · intro p hp
    rcases List.mem_map.1 hp with ⟨p0, hp0, hp0e⟩
    rcases hpar p0 hp0 with ⟨v, hv⟩
    exact hp0e ▸ refreshParam_fresh hv rfl
  · intro o ho
    rcases List.mem_map.1 ho with ⟨o0, ho0, ho0e⟩
    rcases houts o0 ho0 with ⟨f, hf, hr⟩
    exact ho0e ▸ refreshRef_fresh hf hr

theorem fresh_stage_out_file {wk : World} {t : Stage} {pth : String}
    (hfresh : directlyStale wk t = false) (hp : pth ∈ outPaths t) :
    ∃ f, wk.fs pth = some f ∧ f.readable = true := by
  rcases List.mem_map.1 hp with ⟨o, ho, hop⟩
  have hfp := (directlyStale_false.1 hfresh).2.2.1 o ho
  rw [refChanged_false_iff] at hfp
  rcases fingerprint_ok_inv hfp with ⟨f, hf, hr, _⟩
  exact ⟨f, hop ▸ hf, hr⟩

theorem pos_prefix_suffix {l1 l2 : List String} {a b : String} (hnd : (l1 ++ l2).Nodup)
    (ha : a ∈ l1) (hb : b ∈ l2) : pos (l1 ++ l2) a < pos (l1 ++ l2) b := by
  have hbl1 : b ∉ l1 := by
    intro hcc
    rw [List.nodup_append] at hnd
    exact hnd.2.2 hcc hb
  have h1 : pos (l1 ++ l2) a < l1.length := pos_append_mem _ ha
  have h2 : pos (l1 ++ l2) b = l1.length + pos l2 b := pos_append_not_mem hbl1
  omega

theorem planList_nodup {r : Registry} {w : World} {order : List String}
    (ht : topoSort r = Except.ok order) : (planList r w order).Nodup :=
  (topoSort_nodup ht).filter _

theorem mem_planList {r : Registry} {w : World} {order : List String} {n : String} :
    n ∈ planList r w order ↔ n ∈ order ∧ n ∈ staleFold r w order := by
  unfold planList
  rw [List.mem_filter]
  constructor
  · rintro ⟨h1, h2⟩
    exact ⟨h1, contains_iff.1 h2⟩
  · rintro ⟨h1, h2⟩
    exact ⟨h1, contains_iff.2 h2⟩

/-- Before the next planned stage runs, each of its dependency files is
present and readable: either it has no producer (initial input, still
intact), or its unique producer is fresh — already run, or never planned
— and its recorded output fingerprint certifies the file. -/
theorem deps_present
    {ex : Exec} {r : Registry} {w : World} {order : List String}
    (hc : RunCtx ex r w order)
    {donerev rest' : List String} {n : String} {rk : Registry} {wk : World}
    (hsplit : planList r w order = donerev.reverse ++ n :: rest')
    (hinv : RunInv r w (staleFold r w order) donerev.reverse rk wk)
    {s : Stage} (hs : lookupStage r n = some s) :
    ∀ d ∈ s.deps, ∃ f, wk.fs d.path = some f ∧ f.readable = true := by
  have hnp : n ∈ planList r w order := by
    rw [hsplit]
    exact List.mem_append.2 (Or.inr (List.Mem.head _))
  have hno : n ∈ order := (mem_planList.1 hnp).1
  have hnstale : n ∈ staleFold r w order := (mem_planList.1 hnp).2
  have hpnd : (planList r w order).Nodup := planList_nodup hc.ht
  rcases List.append_of_mem hno with ⟨l1, l2, horder⟩
  intro d hd
  cases hprod : producersOf r d.path with
  | nil =>
    have hstable := hinv.fs_stable d.path (by
      intro u hu hup hdone
      have : u.name ∈ producersOf r d.path := mem_producersOf.2 ⟨u, hu, hup, rfl⟩
      rw [hprod] at this
      exact absurd this (List.not_mem_nil _))
    rw [hstable]
    exact hc.hinputs s (lookup_mem hs) d hd hprod
  | cons uname unames =>
    have hu_mem : uname ∈ producersOf r d.path := by
      rw [hprod]
      exact List.Mem.head _
    rcases mem_producersOf.1 hu_mem with ⟨su, hsur, hsup, hsuname⟩
    have hlu : lookupStage r uname = some su := by
      rw [← hsuname]
      exact lookup_of_mem hc.hnd hsur
    have hup : uname ∈ upstreamNames r s := mem_upstream.2 ⟨d, hd, hu_mem⟩
    have hul1 : uname ∈ l1 := topoSort_good hc.hnd hc.ht l1 n l2 horder s hs uname hup
    have hu_order : uname ∈ order := by
      rw [horder]
      exact List.mem_append.2 (Or.inl hul1)
    have hune : uname ≠ n := by
      intro he
      exact (nodup_split (horder ▸ topoSort_nodup hc.ht)).1 (he ▸ hul1)
    have hfreshu : ∃ t, lookupStage rk uname = some t ∧ directlyStale wk t = false := by
      by_cases hustale : uname ∈ staleFold r w order
      · have hup_p : uname ∈ planList r w order := mem_planList.2 ⟨hu_order, hustale⟩
        have hudone : uname ∈ donerev.reverse := by
          by_contra hnotdone
          have h1 : uname ∈ n :: rest' := by
            have h2 : uname ∈ donerev.reverse ++ n :: rest' := hsplit ▸ hup_p
            rcases List.mem_append.1 h2 with h3 | h3
            · exact absurd h3 hnotdone
            · exact h3
          rcases List.mem_cons.1 h1 with he | hur
          · exact hune he
          · have hqu : (staleFold r w order).contains uname = true := contains_iff.2 hustale
            have hqn : (staleFold r w order).contains n = true := contains_iff.2 hnstale
            have hplse : planList r w order =
                (l1 ++ n :: l2).filter (fun m => (staleFold r w order).contains m) := by
              rw [planList, horder]
            have hlt1 : pos (planList r w order) uname < pos (planList r w order) n := by
              rw [hplse]
              exact pos_filter_lt (horder ▸ topoSort_nodup hc.ht) hul1 hqu hqn
            have hlt2 : pos (planList r w order) n < pos (planList r w order) uname := by
              rw [hsplit]
              have hassoc : donerev.reverse ++ n :: rest' =
                  (donerev.reverse ++ [n]) ++ rest' := by simp
              rw [hassoc]
              exact pos_prefix_suffix (by rw [← hassoc, ← hsplit]; exact hpnd)
                (List.mem_append.2 (Or.inr (List.Mem.head _))) hur
            omega
        exact hinv.fresh_done uname hudone
      · exact hinv.fresh_unplanned uname ((topoSort_mem hc.ht uname).1 hu_order) hustale
    rcases hfreshu with ⟨t, hlt, htfresh⟩
    have hshape_t : stageShape t = stageShape su := by
      rcases lookup_shape hinv.shape_eq uname with ⟨h1, h2⟩ | ⟨t1, t2, h1, h2, hsh⟩
      · rw [hlt] at h1
        cases h1
      · rw [hlt] at h1
        rw [hlu] at h2
        cases h1
        cases h2
        exact hsh
    have hout : d.path ∈ outPaths t := by
      rw [shape_outPaths hshape_t]
      exact contains_iff.1 hsup
    exact fresh_stage_out_file htfresh hout

/-- One command execution that respects the frame contract of the next
planned stage keeps every already-processed and every never-planned
stage fresh. -/
theorem fresh_preserved_step
    {ex : Exec} {r : Registry} {w : World} {order : List String}
    (hc : RunCtx ex r w order)
    {donerev rest' : List String} {n : String} {rk : Registry} {wk : World}
    (hsplit : planList r w order = donerev.reverse ++ n :: rest')
    (hinv : RunInv r w (staleFold r w order) donerev.reverse rk wk)
    {s : Stage} (hs : lookupStage r n = some s)
    {fs' : FS} (hwrite : ∀ pth, producesPath s pth = false → fs' pth = wk.fs pth)
    {m : String} {t : Stage} (hmt : lookupStage rk m = some t)
    (htfresh : directlyStale wk t = false)
    (hm : m ∈ donerev.reverse ∨ (m ∈ stageNames r ∧ m ∉ staleFold r w order)) :
    directlyStale { wk with fs := fs' } t = false := by
  have hnp : n ∈ planList r w order := by
    rw [hsplit]
    exact List.mem_append.2 (Or.inr (List.Mem.head _))
  have hno : n ∈ order := (mem_planList.1 hnp).1
  have hnstale : n ∈ staleFold r w order := (mem_planList.1 hnp).2
  have hpnd : (planList r w order).Nodup := planList_nodup hc.ht
  have hnnotdone : n ∉ donerev.reverse := (nodup_split (hsplit ▸ hpnd)).1
  have hmne : m ≠ n := by
    rcases hm with h1 | ⟨_, h1⟩
    · intro he
      exact hnnotdone (he ▸ h1)
    · intro he
      exact h1 (he ▸ hnstale)
  -- the original registry entry for m, shape-equal to t
  have horig : ∃ tOrig, lookupStage r m = some tOrig ∧ stageShape t = stageShape tOrig := by
    rcases lookup_shape hinv.shape_eq m with ⟨h1, h2⟩ | ⟨t1, t2, h1, h2, hsh⟩
    · rw [hmt] at h1
      cases h1
    · rw [hmt] at h1
      cases h1
      exact ⟨t2, h2, hsh⟩
  rcases horig with ⟨tOrig, hmOrig, hshape_t⟩
  have hmOrig_mem : tOrig ∈ r := lookup_mem hmOrig
  have hmOrig_name : tOrig.name = m := lookup_name hmOrig
  refine @fresh_transfer wk { wk with fs := fs' } t rfl rfl ?_ ?_ htfresh
  · intro dref hd
    by_cases hpp : producesPath s dref.path = true
    · exfalso
      have hdOrig : dref.path ∈ tOrig.deps.map (fun d => d.path) := by
        rw [← shape_depPaths hshape_t]
        exact List.mem_map.2 ⟨dref, hd, rfl⟩
      rcases List.mem_map.1 hdOrig with ⟨d0, hd0, hd0p⟩
      have hupn : n ∈ upstreamNames r tOrig :=
        mem_upstream.2 ⟨d0, hd0,
          mem_producersOf.2 ⟨s, lookup_mem hs, hd0p ▸ hpp, lookup_name hs⟩⟩
      have hmo : m ∈ order := (topoSort_mem hc.ht m).2
        (hmOrig_name ▸ List.mem_map.2 ⟨tOrig, hmOrig_mem, rfl⟩)
      rcases List.append_of_mem hmo with ⟨lm1, lm2, hmsplit⟩
      have hnl1 : n ∈ lm1 :=
        topoSort_good hc.hnd hc.ht lm1 m lm2 hmsplit tOrig hmOrig n hupn
      rcases hm with hdone | ⟨hmnames, hmnotstale⟩
      · have hmstale : m ∈ staleFold r w order := by
          have hmp : m ∈ planList r w order := by
            rw [hsplit]
            exact List.mem_append.2 (Or.inl hdone)
          exact (mem_planList.1 hmp).2
        have hmp : m ∈ planList r w order := mem_planList.2 ⟨hmo, hmstale⟩
        have hqn : (staleFold r w order).contains n = true := contains_iff.2 hnstale
        have hqm : (staleFold r w order).contains m = true := contains_iff.2 hmstale
        have hplse : planList r w order =
            (lm1 ++ m :: lm2).filter (fun x => (staleFold r w order).contains x) := by
          rw [planList, hmsplit]
        have hlt1 : pos (planList r w order) n < pos (planList r w order) m := by
          rw [hplse]
          exact pos_filter_lt (hmsplit ▸ topoSort_nodup hc.ht) hnl1 hqn hqm
        have hlt2 : pos (planList r w order) m < pos (planList r w order) n := by
          rw [hsplit]
          exact pos_lt_of_split hdone hnnotdone
        omega
      · have : m ∈ staleFold r w order := by
          rw [hmsplit] at hnstale ⊢
          exact stale_propagate (hmsplit ▸ topoSort_nodup hc.ht) hmOrig hupn hnl1 hnstale
        exact hmnotstale this
    · exact hwrite dref.path (bool_not_true hpp)
  · intro o ho
    by_cases hpp : producesPath s o.path = true
    · exfalso
      have hto : producesPath tOrig o.path = true := by
        have : o.path ∈ outPaths tOrig := by
          rw [← shape_outPaths hshape_t]
          exact List.mem_map.2 ⟨o, ho, rfl⟩
        exact contains_iff.2 this
      have hsn_ne : s.name ≠ tOrig.name := by
        rw [lookup_name hs, hmOrig_name]
        exact fun he => hmne he.symm
      have := dupOut_disjoint hc.hdisj s (lookup_mem hs) tOrig hmOrig_mem hsn_ne o.path hpp
      rw [hto] at this
      exact absurd this (by simp)
    · exact hwrite o.path (bool_not_true hpp)

/-- Master invariant of the Runner: executing the remaining plan from a
state satisfying the invariant either succeeds — every planned stage got
executed and the invariant extends over the whole plan — or halts at the
first failing stage, with exactly the earlier stages executed and the
core invariant (freshness of processed and never-planned stages, and
untouched registry entries elsewhere) still holding. -/
theorem runPlanAux_master
    {ex : Exec} {r : Registry} {w : World} {order : List String}
    (hc : RunCtx ex r w order) :
    ∀ (rest donerev : List String) (rk : Registry) (wk : World),
      planList r w order = donerev.reverse ++ rest →
      RunInv r w (staleFold r w order) donerev.reverse rk wk →
      ((runPlanAux ex rest rk wk donerev).failure = none →
          (runPlanAux ex rest rk wk donerev).executed = donerev.reverse ++ rest ∧
          RunInv r w (staleFold r w order) (donerev.reverse ++ rest)
            (runPlanAux ex rest rk wk donerev).registry
            (runPlanAux ex rest rk wk donerev).world) ∧
      (∀ nf e, (runPlanAux ex rest rk wk donerev).failure = some (nf, e) →
          ∃ pre post, rest = pre ++ nf :: post ∧
            (runPlanAux ex rest rk wk donerev).executed = donerev.reverse ++ pre ∧
            RunInvCore r w (staleFold r w order) (donerev.reverse ++ pre)
              (runPlanAux ex rest rk wk donerev).registry
              (runPlanAux ex rest rk wk donerev).world) := by
  intro rest
  induction rest with
  | nil =>
    intro donerev rk wk hsplit hinv
    constructor
    · intro _
      refine ⟨by simp [runPlanAux], ?_⟩
      have : donerev.reverse ++ ([] : List String) = donerev.reverse := by simp
      rw [this]
      exact hinv
    · intro nf e hfail
      simp [runPlanAux] at hfail
  | cons n rest' ih =>
    intro donerev rk wk hsplit hinv
    have hnp : n ∈ planList r w order := by
      rw [hsplit]
      exact List.mem_append.2 (Or.inr (List.Mem.head _))
    have hno : n ∈ order := (mem_planList.1 hnp).1
    have hnstale : n ∈ staleFold r w order := (mem_planList.1 hnp).2
    have hnames : n ∈ stageNames r := (topoSort_mem hc.ht n).1 hno
    rcases lookup_mem_names hnames with ⟨s, hs, hsr, hsn⟩
    have hpnd : (planList r w order).Nodup := planList_nodup hc.ht
    have hnnotdone : n ∉ donerev.reverse := (nodup_split (hsplit ▸ hpnd)).1
    have hlookrk : lookupStage rk n = some s := by
      rw [hinv.untouched n hnnotdone]
      exact hs
    have hcmds_s : wk.cmds s.name = w.cmds s.name := by rw [hinv.cmds_eq]
    cases hrun : runStage ex wk s with
    | mk w' res0 =>
      cases res0 with
      | error e0 =>
        have hred : runPlanAux ex (n :: rest') rk wk donerev =
            ⟨rk, w', donerev.reverse, some (n, e0)⟩ := by
          simp only [runPlanAux, hlookrk, hrun]
        rw [hred]
        constructor
        · intro hnone
          simp at hnone
        · intro nf e hfail
          have hfail' : some (n, e0) = some (nf, e) := hfail
          injection hfail' with hpair
          injection hpair with hnf he0
          subst hnf
          subst he0
          refine ⟨[], rest', by simp, by simp, ?_⟩
          have happ : donerev.reverse ++ ([] : List String) = donerev.reverse := by simp
          rw [happ]
          rcases runStage_err hrun with ⟨hww, hex, he⟩ | ⟨fs', hex, hww, he, hall⟩
          · subst hww
            exact hinv.toRunInvCore
          · subst hww
            have hwrite : ∀ pth, producesPath s pth = false → fs' pth = wk.fs pth :=
              (hc.hframe s hsr wk.fs fs' (by rw [← hcmds_s]; exact hex)).1
            refine { params_eq := hinv.params_eq, cmds_eq := hinv.cmds_eq,
                     shape_eq := hinv.shape_eq, untouched := hinv.untouched,
                     fresh_done := ?_, fresh_unplanned := ?_ }
            · intro m hm
              rcases hinv.fresh_done m hm with ⟨t, h1, h2⟩
              exact ⟨t, h1, fresh_preserved_step hc hsplit hinv hs hwrite h1 h2 (Or.inl hm)⟩
            · intro m h1 h2
              rcases hinv.fresh_unplanned m h1 h2 with ⟨t, h3, h4⟩
              exact ⟨t, h3,
                fresh_preserved_step hc hsplit hinv hs hwrite h3 h4 (Or.inr ⟨h1, h2⟩)⟩
      | ok s' =>
        rcases runStage_ok hrun with ⟨fs', hex, hw', hs'eq, hall⟩
        subst hw'
        have hfr := hc.hframe s hsr wk.fs fs' (by rw [← hcmds_s]; exact hex)
        have hwrite := hfr.1
        have hdeps_wk := deps_present hc hsplit hinv hs
        have hself : ∀ d ∈ s.deps, producesPath s d.path = false := by
          intro d hd
          cases hpp : producesPath s d.path with
          | false => rfl
          | true =>
            exfalso
            have hupn : n ∈ upstreamNames r s :=
              mem_upstream.2 ⟨d, hd, mem_producersOf.2 ⟨s, hsr, hpp, hsn⟩⟩
            rcases List.append_of_mem hno with ⟨l1, l2, horder⟩
            have hnl1 : n ∈ l1 := topoSort_good hc.hnd hc.ht l1 n l2 horder s hs n hupn
            exact (nodup_split (horder ▸ topoSort_nodup hc.ht)).1 hnl1
        have hdeps_fs' : ∀ d ∈ s.deps, ∃ f, fs' d.path = some f ∧ f.readable = true := by
          intro d hd
          rw [hwrite d.path (hself d hd)]
          exact hdeps_wk d hd
        have houts_fs' : ∀ o ∈ s.outs, ∃ f, fs' o.path = some f ∧ f.readable = true := by
          intro o ho
          have h1 := List.all_eq_true.1 hall o ho
          cases hfo : fs' o.path with
          | none =>
            rw [hfo] at h1
            simp at h1
          | some f => exact ⟨f, rfl, hfr.2 o ho f hfo⟩
        have hpar_s : ∀ p ∈ s.params, ∃ v, wk.params p.source p.key = some v := by
          intro p hp
          rw [hinv.params_eq]
          exact hc.hpar s hsr p hp
        have hfresh_n : directlyStale { wk with fs := fs' } s' = false := by
          rw [hs'eq]
          exact refresh_fresh hdeps_fs' houts_fs' hpar_s
        have hs'name : s'.name = n := by
          rw [hs'eq, refreshStage_name]
          exact hsn
        have hnames_rk : stageNames rk = stageNames r := stageNames_of_shape hinv.shape_eq
        have hrk_nodup : (stageNames rk).Nodup := by
          rw [hnames_rk]
          exact hc.hnd
        have hlookrk_s' : lookupStage rk s'.name = some s := by
          rw [hs'name]
          exact hlookrk
        have hshape_s' : stageShape s' = stageShape s := by
          rw [hs'eq]
          exact stageShape_refresh _ _ _
        have hshape_upd : regShape (updateReg rk s') = regShape r := by
          rw [regShape_update hrk_nodup hlookrk_s' hshape_s']
          exact hinv.shape_eq
        have hrevc : (n :: donerev).reverse = donerev.reverse ++ [n] := by
          rw [List.reverse_cons]
        have hinv' : RunInv r w (staleFold r w order) ((n :: donerev).reverse)
            (updateReg rk s') { wk with fs := fs' } := by
          rw [hrevc]
          refine { params_eq := hinv.params_eq, cmds_eq := hinv.cmds_eq,
                   shape_eq := hshape_upd, untouched := ?_, fresh_done := ?_,
                   fresh_unplanned := ?_, fs_stable := ?_ }
          · intro m hm
            have hm1 : m ∉ donerev.reverse := fun hx => hm (List.mem_append.2 (Or.inl hx))
            have hm2 : m ≠ n := fun hx =>
              hm (List.mem_append.2 (Or.inr (by rw [hx]; exact List.Mem.head _)))
            rw [lookupStage_update_ne (by rw [hs'name]; exact hm2)]
            exact hinv.untouched m hm1
          · intro m hm
            rcases List.mem_append.1 hm with hm1 | hm1
            · rcases hinv.fresh_done m hm1 with ⟨t, h1, h2⟩
              have hmne : m ≠ n := fun hx => hnnotdone (hx ▸ hm1)
              refine ⟨t, ?_, ?_⟩
              · rw [lookupStage_update_ne (by rw [hs'name]; exact hmne)]
                exact h1
              · exact fresh_preserved_step hc hsplit hinv hs hwrite h1 h2 (Or.inl hm1)
            · have hmn : m = n := by
                rcases List.mem_cons.1 hm1 with h | h
                · exact h
                · exact absurd h (List.not_mem_nil m)
              subst hmn
              refine ⟨s', ?_, hfresh_n⟩
              rw [← hs'name]
              exact lookupStage_update_self (by rw [hs'name, hnames_rk]; exact hnames)
          · intro m hmnames hmnotstale
            rcases hinv.fresh_unplanned m hmnames hmnotstale with ⟨t, h1, h2⟩
            have hmne : m ≠ n := fun hx => hmnotstale (hx ▸ hnstale)
            refine ⟨t, ?_,
              fresh_preserved_step hc hsplit hinv hs hwrite h1 h2
                (Or.inr ⟨hmnames, hmnotstale⟩)⟩
            rw [lookupStage_update_ne (by rw [hs'name]; exact hmne)]
            exact h1
          · intro pth hnop
            have hs_not : producesPath s pth = false := by
              cases hps : producesPath s pth with
              | false => rfl
              | true =>
                exfalso
                refine hnop s hsr hps ?_
                rw [hsn]
                exact List.mem_append.2 (Or.inr (List.Mem.head _))
            show fs' pth = w.fs pth
            rw [hwrite pth hs_not]
            exact hinv.fs_stable pth
              (fun u hu hup hdone => hnop u hu hup (List.mem_append.2 (Or.inl hdone)))
        have hsplit' : planList r w order = (n :: donerev).reverse ++ rest' := by
          rw [hrevc, hsplit]
          simp
        have hred : runPlanAux ex (n :: rest') rk wk donerev =
            runPlanAux ex rest' (updateReg rk s') { wk with fs := fs' } (n :: donerev) := by
          simp only [runPlanAux, hlookrk, hrun]
        rw [hred]
        have hres := ih (n :: donerev) (updateReg rk s') { wk with fs := fs' } hsplit' hinv'
        have hflat : (n :: donerev).reverse ++ rest' = donerev.reverse ++ n :: rest' := by
          rw [hrevc]
          simp
        constructor
        · intro hnone
          rcases hres.1 hnone with ⟨hexec, hinv2⟩
          constructor
          · rw [hexec, hflat]
          · rw [← hflat]
            exact hinv2
        · intro nf e hfail
          rcases hres.2 nf e hfail with ⟨pre', post, hr1, hr2, hcore⟩
          have hflat2 : (n :: donerev).reverse ++ pre' = donerev.reverse ++ n :: pre' := by
            rw [hrevc]
            simp
          refine ⟨n :: pre', post, by simp [hr1], ?_, ?_⟩
          · rw [hr2, hflat2]
          · rw [← hflat2]
            exact hcore

/-- If every stage of the order is directly fresh, the staleness pass
records nothing. -/
theorem staleFold_nil {r : Registry} {w : World} :
    ∀ order : List String,
      (∀ m ∈ order, ∀ s, lookupStage r m = some s → directlyStale w s = false) →
      staleFold r w order = [] := by
  intro order
  induction order with
  | nil => intro _; rfl
  | cons x t ih =>
    intro h
    unfold staleFold at ih ⊢
    rw [staleFoldAux_cons]
    have hstep : staleStep r w [] x = [] := by
      unfold staleStep
      cases hl : lookupStage r x with
      | none => rfl
      | some s =>
        show (if (directlyStale w s ||
            (upstreamNames r s).any fun a => List.contains [] a) = true
          then x :: [] else []) = []
        have hany : ((upstreamNames r s).any fun a => List.contains [] a) = false :=
          any_false_iff.2 (fun a _ => rfl)
        rw [h x (List.Mem.head t) s hl, hany]
        simp
    rw [hstep]
    exact ih (fun m hm s hl => h m (List.Mem.tail x hm) s hl)

/-- The core invariant over the entire plan forces the next staleness
pass to record nothing at all. -/
theorem core_inv_no_stale
    {r : Registry} {w : World} {order : List String} {rk : Registry} {wk : World}
    (ht : topoSort r = Except.ok order)
    (hcore : RunInvCore r w (staleFold r w order) (planList r w order) rk wk) :
    staleFold rk wk order = [] := by
  refine staleFold_nil order ?_
  intro m hm s hls
  have hmnames : m ∈ stageNames r := (topoSort_mem ht m).1 hm
  by_cases hstale : m ∈ staleFold r w order
  · have hmp : m ∈ planList r w order := mem_planList.2 ⟨hm, hstale⟩
    rcases hcore.fresh_done m hmp with ⟨t, h1, h2⟩
    rw [hls] at h1
    cases h1
    exact h2
  · rcases hcore.fresh_unplanned m hmnames hstale with ⟨t, h1, h2⟩
    rw [hls] at h1
    cases h1
    exact h2

/-! C2: idempotence after a full successful run. -/

/-- C2: if the plan runs to completion successfully and nothing else
changes any input file, parameter value, output file or command, the
next invocation of the planner returns the empty sequence — every stage
evaluates as not stale. -/
theorem plan_idempotent_after_success
    (ex : Exec) (r : Registry) (w : World) (p : List String)
    (hload : loadOk r = true)
    (hplan : plan r w = Except.ok p)
    (hframe : ∀ s ∈ r, stageFrame ex (w.cmds s.name) s)
    (hinputs : ∀ s ∈ r, ∀ d ∈ s.deps, producersOf r d.path = [] →
        ∃ f, w.fs d.path = some f ∧ f.readable = true)
    (hpar : ∀ s ∈ r, ∀ pr ∈ s.params, ∃ v, w.params pr.source pr.key = some v)
    (hok : (runPlanAux ex p r w []).failure = none) :
    plan (runPlanAux ex p r w []).registry (runPlanAux ex p r w []).world =
      Except.ok [] ∧
    ∀ m ∈ stageNames (runPlanAux ex p r w []).registry,
      is_stale (runPlanAux ex p r w []).registry (runPlanAux ex p r w []).world m = false := by
  cases ht : topoSort r with
  | error e =>
    rw [plan, ht] at hplan
    cases hplan
  | ok order =>
    rw [plan_eq ht] at hplan
    have hpeq : planList r w order = p := Except.ok.inj hplan
    have hc : RunCtx ex r w order :=
      ⟨loadOk_nodup hload, (loadOk_parts hload).2, ht, hframe, hinputs, hpar⟩
    have hinv0 : RunInv r w (staleFold r w order) (List.reverse []) r w := by
      refine { params_eq := rfl, cmds_eq := rfl, shape_eq := rfl,
               untouched := fun m _ => rfl, fresh_done := ?_,
               fresh_unplanned := ?_, fs_stable := fun pth _ => rfl }
      · intro m hm
        simp at hm
      · intro m hmnames hmnot
        rcases lookup_mem_names hmnames with ⟨s, hls, hsr, hsn⟩
        exact ⟨s, hls, fresh_of_not_stale ((topoSort_mem ht m).2 hmnames) hmnot s hls⟩
    have hsplit0 : planList r w order = List.reverse [] ++ p := by
      rw [hpeq]
      rfl
    have hmaster := (runPlanAux_master hc p [] r w hsplit0 hinv0).1 hok
    have hinvp : RunInv r w (staleFold r w order) (planList r w order)
        (runPlanAux ex p r w []).registry (runPlanAux ex p r w []).world := by
      have h2 := hmaster.2
      have he : List.reverse [] ++ p = planList r w order := by
        rw [hpeq]
        rfl
      rw [he] at h2
      exact h2
    have hts : topoSort (runPlanAux ex p r w []).registry = Except.ok order := by
      rw [topoSort_shape hinvp.shape_eq]
      exact ht
    have hsf : staleFold (runPlanAux ex p r w []).registry
        (runPlanAux ex p r w []).world order = [] :=
      core_inv_no_stale ht hinvp.toRunInvCore
    constructor
    · rw [plan_eq hts, hsf]
      have hfil : order.filter (fun n => List.contains [] n) = [] := by
        rw [List.filter_eq_nil]
        intro a _
        simp
      rw [hfil]
    · intro m _
      simp only [is_stale, hts, hsf]
      rfl

theorem wFrame2 : ∀ s ∈ wReg2, stageFrame wExec2 (wWorld2.cmds s.name) s := by
  intro s hs
  have hseq : s = wStageA := by
    rcases List.mem_cons.1 hs with h | h
    · exact h
    · exact absurd h (List.not_mem_nil s)
  subst hseq
  intro fs fs' hex
  have hex' : some (fun p =>
      if p == "out.txt" then some ⟨"world", 2, 644, true⟩ else fs p) = some fs' := hex
  have hfs' : fs' = fun p =>
      if p == "out.txt" then some ⟨"world", 2, 644, true⟩ else fs p :=
    (Option.some.inj hex').symm
  subst hfs'
  constructor
  · intro p hp
    have hpne : p ∉ outPaths wStageA := by
      intro hm
      have hc2 : producesPath wStageA p = true := contains_iff.2 hm
      rw [hp] at hc2
      exact absurd hc2 (by simp)
    have hbeq : (p == "out.txt") = false := by
      rw [beq_eq_false_iff_ne]
      intro he
      exact hpne (he ▸ List.Mem.head _)
    show (if p == "out.txt" then some ⟨"world", 2, 644, true⟩ else fs p) = fs p
    rw [if_neg (by simp [hbeq])]
  · intro o ho fl hfl
    have hoeq : o = ⟨"out.txt", "stale-hash", 0⟩ := by
      rcases List.mem_cons.1 ho with h | h
      · exact h
      · exact absurd h (List.not_mem_nil o)
    subst hoeq
    have hfl' : some (⟨"world", 2, 644, true⟩ : File) = some fl := hfl
    rw [← Option.some.inj hfl']

theorem wInputs2 : ∀ s ∈ wReg2, ∀ d ∈ s.deps, producersOf wReg2 d.path = [] →
    ∃ f, wWorld2.fs d.path = some f ∧ f.readable = true := by
  intro s hs d hd _
  have hseq : s = wStageA := by
    rcases List.mem_cons.1 hs with h | h
    · exact h
    · exact absurd h (List.not_mem_nil s)
  subst hseq
  have hdeq : d = ⟨"in.txt", digestStr "hello", 5⟩ := by
    rcases List.mem_cons.1 hd with h | h
    · exact h
    · exact absurd h (List.not_mem_nil d)
  subst hdeq
  exact ⟨⟨"hello", 1, 644, true⟩, rfl, rfl⟩

theorem wPar2 : ∀ s ∈ wReg2, ∀ pr ∈ s.params, ∃ v, wWorld2.params pr.source pr.key = some v := by
  intro s hs pr hpr
  have hseq : s = wStageA := by
    rcases List.mem_cons.1 hs with h | h
    · exact h
    · exact absurd h (List.not_mem_nil s)
  subst hseq
  exact absurd hpr (List.not_mem_nil pr)

/-- C2 (witness): on the concrete one-stage scenario — stale stage,
command rewritten, output produced — the second planning pass is empty
and the stage is no longer stale. -/
theorem plan_idempotent_after_success_witness :
    plan (runPlanAux wExec2 ["A"] wReg2 wWorld2 []).registry
        (runPlanAux wExec2 ["A"] wReg2 wWorld2 []).world = Except.ok [] ∧
    ∀ m ∈ stageNames (runPlanAux wExec2 ["A"] wReg2 wWorld2 []).registry,
      is_stale (runPlanAux wExec2 ["A"] wReg2 wWorld2 []).registry
        (runPlanAux wExec2 ["A"] wReg2 wWorld2 []).world m = false :=
  plan_idempotent_after_success wExec2 wReg2 wWorld2 ["A"] (by decide) (by decide)
    wFrame2 wInputs2 wPar2 (by decide)

/-- After a partial run satisfying the core invariant on the executed
prefix of the plan, every stage the next staleness pass records lies in
the unexecuted remainder of the plan. -/
theorem core_inv_stale_subset
    {r : Registry} {w : World} {order : List String} {rk : Registry} {wk : World}
    (hnd : (stageNames r).Nodup)
    (ht : topoSort r = Except.ok order)
    {pre rest : List String}
    (hplansplit : planList r w order = pre ++ rest)
    (hcore : RunInvCore r w (staleFold r w order) pre rk wk) :
    ∀ m ∈ staleFold rk wk order, m ∈ rest := by
  have hond : order.Nodup := topoSort_nodup ht
  have main : ∀ k (m : String), pos order m = k → m ∈ staleFold rk wk order → m ∈ rest := by
    intro k
    induction k using Nat.strong_induction_on with
    | _ k ihk =>
      intro m hpos hm
      have hmo : m ∈ order := staleFold_subset_order hm
      rcases List.append_of_mem hmo with ⟨l1, l2, hsplit⟩
      rcases stale_elim (hsplit ▸ hond) (hsplit ▸ hm) with ⟨s', hls', hcase⟩
      have horig : ∃ tO, lookupStage r m = some tO ∧ stageShape s' = stageShape tO := by
        rcases lookup_shape hcore.shape_eq m with ⟨h1, h2⟩ | ⟨t1, t2, h1, h2, hsh⟩
        · rw [hls'] at h1
          cases h1
        · rw [hls'] at h1
          cases h1
          exact ⟨t2, h2, hsh⟩
      rcases horig with ⟨tO, hltO, hshO⟩
      rcases hcase with hdirect | ⟨a, haup, haA, hal1⟩
      · by_contra hnotrest
        have hfresh : ∃ t, lookupStage rk m = some t ∧ directlyStale wk t = false := by
          by_cases hstale : m ∈ staleFold r w order
          · have hmp : m ∈ planList r w order := mem_planList.2 ⟨hmo, hstale⟩
            have hmpre : m ∈ pre := by
              rw [hplansplit] at hmp
              rcases List.mem_append.1 hmp with h | h
              · exact h
              · exact absurd h hnotrest
            exact hcore.fresh_done m hmpre
          · exact hcore.fresh_unplanned m ((topoSort_mem ht m).1 hmo) hstale
        rcases hfresh with ⟨t, hlt, htf⟩
        rw [hls'] at hlt
        cases hlt
        rw [hdirect] at htf
        exact absurd htf (by simp)
      · have haS : a ∈ staleFold rk wk order := by
          rw [hsplit]
          exact staleFoldAux_prefix_le haA
        have hposa : pos order a < pos order m := by
          rw [hsplit]
          exact pos_lt_of_split hal1 (nodup_split (hsplit ▸ hond)).1
        have haRest : a ∈ rest := by
          refine ihk (pos order a) ?_ a rfl haS
          rw [← hpos]
          exact hposa
        have haup_r : a ∈ upstreamNames r tO := by
          rw [← upstreamNames_shape hcore.shape_eq hshO]
          exact haup
        have haplan : a ∈ planList r w order := by
          rw [hplansplit]
          exact List.mem_append.2 (Or.inr haRest)
        have hastale_orig : a ∈ staleFold r w order := (mem_planList.1 haplan).2
        have hmstale_orig : m ∈ staleFold r w order := by
          rw [hsplit] at hastale_orig ⊢
          exact stale_propagate (hsplit ▸ hond) hltO haup_r hal1 hastale_orig
        have hmplan : m ∈ planList r w order := mem_planList.2 ⟨hmo, hmstale_orig⟩
        have hmplan2 := hmplan
        rw [hplansplit] at hmplan2
        rcases List.mem_append.1 hmplan2 with hmpre | hmrest
        · exfalso
          have hqa : (staleFold r w order).contains a = true := contains_iff.2 hastale_orig
          have hqm : (staleFold r w order).contains m = true := contains_iff.2 hmstale_orig
          have hplse : planList r w order =
              (l1 ++ m :: l2).filter (fun x => (staleFold r w order).contains x) := by
            rw [planList, hsplit]
          have hlt1 : pos (planList r w order) a < pos (planList r w order) m := by
            rw [hplse]
            exact pos_filter_lt (hsplit ▸ hond) hal1 hqa hqm
          have hlt2 : pos (planList r w order) m < pos (planList r w order) a := by
            rw [hplansplit]
            exact pos_prefix_suffix (hplansplit ▸ planList_nodup ht) hmpre haRest
          omega
        · exact hmrest
  intro m hm
  exact main (pos order m) m rfl hm

/-! C4: halt on failure with partial progress preserved. -/

/-- C4 (amended): when a planned stage fails, no later planned stage is
attempted (the executed list is exactly the plan prefix before the
failing stage), the registry keeps the original entries of every
non-executed stage while the executed stages' entries are updated and
fresh, and a subsequent planning pass plans only stages among the failed
stage and the planned-but-unattempted stages after it. -/
theorem halt_preserves_progress_and_resume
    (ex : Exec) (r : Registry) (w : World) (p : List String)
    (hload : loadOk r = true)
    (hplan : plan r w = Except.ok p)
    (hframe : ∀ s ∈ r, stageFrame ex (w.cmds s.name) s)
    (hinputs : ∀ s ∈ r, ∀ d ∈ s.deps, producersOf r d.path = [] →
        ∃ f, w.fs d.path = some f ∧ f.readable = true)
    (hpar : ∀ s ∈ r, ∀ pr ∈ s.params, ∃ v, w.params pr.source pr.key = some v)
    (n : String) (e : EngineError)
    (hfail : (runPlanAux ex p r w []).failure = some (n, e)) :
    ∃ post,
      p = (runPlanAux ex p r w []).executed ++ n :: post ∧
      (∀ s ∈ r, s.name ∉ (runPlanAux ex p r w []).executed →
          lookupStage (runPlanAux ex p r w []).registry s.name = some s) ∧
      (∀ m ∈ (runPlanAux ex p r w []).executed,
          ∃ s', lookupStage (runPlanAux ex p r w []).registry m = some s' ∧
            directlyStale (runPlanAux ex p r w []).world s' = false) ∧
      (∃ p', plan (runPlanAux ex p r w []).registry (runPlanAux ex p r w []).world =
          Except.ok p' ∧ ∀ m ∈ p', m ∈ n :: post) := by
  cases ht : topoSort r with
  | error e0 =>
    rw [plan, ht] at hplan
    cases hplan
  | ok order =>
    rw [plan_eq ht] at hplan
    have hpeq : planList r w order = p := Except.ok.inj hplan
    have hnd := loadOk_nodup hload
    have hc : RunCtx ex r w order :=
      ⟨hnd, (loadOk_parts hload).2, ht, hframe, hinputs, hpar⟩
    have hinv0 : RunInv r w (staleFold r w order) (List.reverse []) r w := by
      refine { params_eq := rfl, cmds_eq := rfl, shape_eq := rfl,
               untouched := fun m _ => rfl, fresh_done := ?_,
               fresh_unplanned := ?_, fs_stable := fun pth _ => rfl }
      · intro m hm
        simp at hm
      · intro m hmnames hmnot
        rcases lookup_mem_names hmnames with ⟨s, hls, hsr, hsn⟩
        exact ⟨s, hls, fresh_of_not_stale ((topoSort_mem ht m).2 hmnames) hmnot s hls⟩
    have hsplit0 : planList r w order = List.reverse [] ++ p := by
      rw [hpeq]
      rfl
    rcases (runPlanAux_master hc p [] r w hsplit0 hinv0).2 n e hfail with
      ⟨pre, post, hr1, hr2, hcore0⟩
    have hr2' : (runPlanAux ex p r w []).executed = pre := by
      rw [hr2]
      rfl
    have hcore : RunInvCore r w (staleFold r w order) pre
        (runPlanAux ex p r w []).registry (runPlanAux ex p r w []).world := hcore0
    refine ⟨post, ?_, ?_, ?_, ?_⟩
    · rw [hr2']
      exact hr1
    · intro s hs hsnot
      rw [hr2'] at hsnot
      rw [hcore.untouched s.name hsnot]
      exact lookup_of_mem hnd hs
    · intro m hm
      rw [hr2'] at hm
      exact hcore.fresh_done m hm
    · have hts : topoSort (runPlanAux ex p r w []).registry = Except.ok order := by
        rw [topoSort_shape hcore.shape_eq]
        exact ht
      refine ⟨_, plan_eq hts, ?_⟩
      intro m hmp
      have hsplitz : planList r w order = pre ++ n :: post := hpeq.trans hr1
      have hmstale : m ∈ staleFold (runPlanAux ex p r w []).registry
          (runPlanAux ex p r w []).world order := by
        rcases List.mem_filter.1 hmp with ⟨_, h2⟩
        exact contains_iff.1 h2
      exact core_inv_stale_subset hnd ht hsplitz hcore m hmstale

/-- C4 (counterexample): the claim's clause "a subsequent invocation
plans only the failed stage and its downstream stages" fails: `B` and
`C` are independent stale stages, `B` fails, `C` was planned but never
attempted, and the next plan contains `C`, which is not the failed stage
and not downstream of it (it has no upstream producers at all). -/
theorem replan_not_confined_to_downstream :
    plan x4Reg x4World = Except.ok ["B", "C"] ∧
    (runPlanAux x4Exec ["B", "C"] x4Reg x4World []).failure =
      some ("B", EngineError.stageExecutionError) ∧
    (runPlanAux x4Exec ["B", "C"] x4Reg x4World []).executed = [] ∧
    plan (runPlanAux x4Exec ["B", "C"] x4Reg x4World []).registry
        (runPlanAux x4Exec ["B", "C"] x4Reg x4World []).world = Except.ok ["B", "C"] ∧
    upstreamNames x4Reg x4C = [] ∧
    edgeB x4Reg "B" "C" = false ∧ edgeB x4Reg "C" "B" = false ∧
    ("C" : String) ≠ "B" := by
  exact ⟨by decide, by decide, by decide, by decide, by decide, by decide, by decide, by decide⟩

theorem c4Frame : ∀ s ∈ c4Reg, stageFrame c4Exec (c4World.cmds s.name) s := by
  intro s hs
  rcases List.mem_cons.1 hs with h | h
  · subst h
    intro fs fs' hex
    have hex' : some (fun p =>
        if p == "a.txt" then some ⟨"aout", 0, 0, true⟩ else fs p) = some fs' := hex
    have hfs' : fs' = fun p =>
        if p == "a.txt" then some ⟨"aout", 0, 0, true⟩ else fs p :=
      (Option.some.inj hex').symm
    subst hfs'
    constructor
    · intro p hp
      have hpne : p ∉ outPaths c4A := by
        intro hm
        have hc2 : producesPath c4A p = true := contains_iff.2 hm
        rw [hp] at hc2
        exact absurd hc2 (by simp)
      have hbeq : (p == "a.txt") = false := by
        rw [beq_eq_false_iff_ne]
        intro he
        exact hpne (he ▸ List.Mem.head _)
      show (if p == "a.txt" then some ⟨"aout", 0, 0, true⟩ else fs p) = fs p
      rw [if_neg (by simp [hbeq])]
    · intro o ho fl hfl
      have hoeq : o = ⟨"a.txt", "xh", 1⟩ := by
        rcases List.mem_cons.1 ho with h | h
        · exact h
        · exact absurd h (List.not_mem_nil o)
      subst hoeq
      have hfl' : some (⟨"aout", 0, 0, true⟩ : File) = some fl := hfl
      rw [← Option.some.inj hfl']
  · rcases List.mem_cons.1 h with h2 | h2
    · subst h2
      intro fs fs' hex
      exact absurd (show (none : Option FS) = some fs' from hex) (by simp)
    · rcases List.mem_cons.1 h2 with h3 | h3
      · subst h3
        intro fs fs' hex
        exact absurd (show (none : Option FS) = some fs' from hex) (by simp)
      · exact absurd h3 (List.not_mem_nil s)

theorem c4Inputs : ∀ s ∈ c4Reg, ∀ d ∈ s.deps, producersOf c4Reg d.path = [] →
    ∃ f, c4World.fs d.path = some f ∧ f.readable = true := by
  intro s hs d hd hp
  rcases List.mem_cons.1 hs with h | h
  · subst h
    have hdeq : d = ⟨"r.txt", digestStr "r", 1⟩ := by
      rcases List.mem_cons.1 hd with h1 | h1
      · exact h1
      · exact absurd h1 (List.not_mem_nil d)
    subst hdeq
    exact ⟨⟨"r", 0, 0, true⟩, rfl, rfl⟩
  · rcases List.mem_cons.1 h with h2 | h2
    · subst h2
      have hdeq : d = ⟨"a.txt", "yh", 1⟩ := by
        rcases List.mem_cons.1 hd with h1 | h1
        · exact h1
        · exact absurd h1 (List.not_mem_nil d)
      subst hdeq
      exact absurd hp (by decide)
    · rcases List.mem_cons.1 h2 with h3 | h3
      · subst h3
        have hdeq : d = ⟨"b.txt", "wh", 1⟩ := by
          rcases List.mem_cons.1 hd with h1 | h1
          · exact h1
          · exact absurd h1 (List.not_mem_nil d)
        subst hdeq
        exact absurd hp (by decide)
      · exact absurd h3 (List.not_mem_nil s)

theorem c4Par : ∀ s ∈ c4Reg, ∀ pr ∈ s.params, ∃ v, c4World.params pr.source pr.key = some v := by
  intro s hs pr hpr
  rcases List.mem_cons.1 hs with h | h
  · subst h
    exact absurd hpr (List.not_mem_nil pr)
  · rcases List.mem_cons.1 h with h2 | h2
    · subst h2
      exact absurd hpr (List.not_mem_nil pr)
    · rcases List.mem_cons.1 h2 with h3 | h3
      · subst h3
        exact absurd hpr (List.not_mem_nil pr)
      · exact absurd h3 (List.not_mem_nil s)

/-- C4 (witness): on the concrete three-stage chain — `A4` succeeds,
`B4`'s command fails — the run halts at `B4` with exactly `A4` executed,
untouched stages keep their original entries, `A4` is fresh afterwards,
and the next plan stays within `B4` and the unattempted stages. -/
theorem halt_preserves_progress_and_resume_witness :
    ∃ post,
      ["A4", "B4", "C4"] =
        (runPlanAux c4Exec ["A4", "B4", "C4"] c4Reg c4World []).executed ++ "B4" :: post ∧
      (∀ s ∈ c4Reg, s.name ∉ (runPlanAux c4Exec ["A4", "B4", "C4"] c4Reg c4World []).executed →
          lookupStage (runPlanAux c4Exec ["A4", "B4", "C4"] c4Reg c4World []).registry s.name =
            some s) ∧
      (∀ m ∈ (runPlanAux c4Exec ["A4", "B4", "C4"] c4Reg c4World []).executed,
          ∃ s', lookupStage (runPlanAux c4Exec ["A4", "B4", "C4"] c4Reg c4World []).registry m =
              some s' ∧
            directlyStale (runPlanAux c4Exec ["A4", "B4", "C4"] c4Reg c4World []).world s' =
              false) ∧
      (∃ p', plan (runPlanAux c4Exec ["A4", "B4", "C4"] c4Reg c4World []).registry
            (runPlanAux c4Exec ["A4", "B4", "C4"] c4Reg c4World []).world = Except.ok p' ∧
          ∀ m ∈ p', m ∈ "B4" :: post) :=
  halt_preserves_progress_and_resume c4Exec c4Reg c4World ["A4", "B4", "C4"]
    (by decide) (by decide) c4Frame c4Inputs c4Par "B4" EngineError.stageExecutionError
    (by decide)

end HousePrices
